import Mathlib

/-!
# Verification of the lead-cleaning pipeline (`task1_clean_and_report.py`)

Shallow embedding of the record normalization and aggregation pipeline:
email validation (`valid_email`), canonical-key deduplication, date
normalization into day/week buckets, and grouped counts with summary
scalars (`clean_leads`, `generate_report`, `main`).

Modelling conventions:
* A pandas DataFrame (read with `dtype=str`) is a rectangular `Table`:
  a list of column names and rows of `Val` cells.  A cell is a string
  (`Val.vstr`), a parsed datetime (`Val.vdate`), a boolean (`Val.vbool`,
  used for the `__valid_email` marker column), or missing (`Val.na`,
  i.e. NaN/NaT).  `conform` pads/truncates a row to the header width,
  reflecting that a DataFrame is rectangular by construction.
* Datetimes carry only their date portion (the pipeline discards
  time-of-day via `.dt.date`), represented as a day number where day 0
  is a Monday (e.g. days since the Monday 0001-01-01 of the proleptic
  Gregorian calendar, the convention of Python ordinals shifted by 1).
  Under this convention the Monday starting the ISO week of day `d` is
  `d - d % 7`.
* `pd.to_datetime(..., errors="coerce")` is an external collaborator and
  is abstracted as a parameter `parse : String → Option Nat`; `none`
  models NaT coercion of an unparsable value.
* Pandas `groupby` is modelled with its default `dropna=True` (NaT keys
  are dropped) and `sort=True` (keys ascending); `.count()` counts
  non-missing entries of the selected column per group; `nunique`
  counts distinct non-missing values.
-/

/-- A cell of the working table: a string, a parsed datetime (day number),
a boolean (the `__valid_email` marker), or a missing value (NaN/NaT). -/
inductive Val where
  | vstr  (s : String)
  | vdate (d : Nat)
  | vbool (b : Bool)
  | na
deriving DecidableEq, Repr

/-- `pd.isna` on a cell. -/
def Val.isNa : Val → Bool
  | .na => true
  | _ => false

/-- Read cell `i` of a row (missing cells read as NaN). -/
def getV (r : List Val) (i : Nat) : Val := r.getD i .na

/-- Pad/truncate a row to the rectangular width `n` of its DataFrame. -/
def conform (n : Nat) (r : List Val) : List Val :=
  r.take n ++ List.replicate (n - r.length) .na

/-- An in-memory DataFrame: column names plus rows of cells. -/
structure Table where
  cols : List String
  rows : List (List Val)
deriving DecidableEq, Repr

/-- Characters stripped by Python's `str.strip()` (ASCII whitespace). -/
def isPySpace (c : Char) : Bool :=
  c == ' ' || c == '\t' || c == '\n' || c == '\r' ||
    c == Char.ofNat 11 || c == Char.ofNat 12

/-- Python `str.strip()`: drop leading and trailing whitespace. -/
def pyStrip (s : String) : String :=
  String.mk (((s.data.dropWhile isPySpace).reverse.dropWhile isPySpace).reverse)

/-- Python `str(x)` on a cell (`astype(str)` maps NaN to the string "nan"). -/
def valToPyStr : Val → String
  | .vstr s => s
  | .vdate d => toString d
  | .vbool b => if b then "True" else "False"
  | .na => "nan"

/-- Character class `[a-zA-Z0-9_.+-]` (the local part of `EMAIL_REGEX`). -/
def isLocalChar (c : Char) : Bool :=
  c.isAlpha || c.isDigit || c == '_' || c == '.' || c == '+' || c == '-'

/-- Character class `[a-zA-Z0-9-]` (the domain label of `EMAIL_REGEX`). -/
def isDomainChar (c : Char) : Bool :=
  c.isAlpha || c.isDigit || c == '-'

/-- Character class `[a-zA-Z0-9-.]` (the final segment of `EMAIL_REGEX`). -/
def isTldChar (c : Char) : Bool :=
  c.isAlpha || c.isDigit || c == '-' || c == '.'

/-- Anchored matcher for `EMAIL_REGEX`, i.e.
`^[a-zA-Z0-9_.+-]+@[a-zA-Z0-9-]+\.[a-zA-Z0-9-.]+$`.  Since `@` is not a
local character the local part is the maximal local-character prefix,
and since the domain class excludes `.` the separating dot is the first
dot after the `@`; the matcher is therefore deterministic. -/
def matchEmailChars (cs : List Char) : Bool :=
  match cs.dropWhile isLocalChar with
  | c :: r =>
    if c = '@' then
      match r.dropWhile isDomainChar with
      | c2 :: t =>
        if c2 = '.' then
          !(cs.takeWhile isLocalChar).isEmpty && !(r.takeWhile isDomainChar).isEmpty &&
            !t.isEmpty && t.all isTldChar
        else false
      | [] => false
    else false
  | [] => false

/-- `valid_email(e)`: `False` on NaN, else whether `EMAIL_REGEX` matches
`str(e).strip()` (the stripped string never ends in a newline, so the
`$` anchor means end of string). -/
def valid_email (e : Val) : Bool :=
  match e with
  | .na => false
  | v => matchEmailChars (pyStrip (valToPyStr v)).data

/-- Python `str.lower()` (character-wise; the alias names are ASCII). -/
def strLower (s : String) : String := String.mk (s.data.map Char.toLower)

/-- First column index satisfying a predicate
(the `for c in df.columns: if ...: break` loops). -/
def findCol (p : String → Bool) : List String → Option Nat
  | [] => none
  | c :: cs => if p c then some 0 else (findCol p cs).map (· + 1)

/-- Index of the email column: first column with `c.lower() == "email"`. -/
def findEmailIdx (cols : List String) : Option Nat :=
  findCol (fun c => strLower c == "email") cols

/-- The date-column aliases accepted by the pipeline. -/
def dateAliases : List String := ["date", "created_at", "lead_date"]

/-- Index of the date-like column: first column whose lowercased name is
`date`, `created_at` or `lead_date`. -/
def findDateIdx (cols : List String) : Option Nat :=
  findCol (fun c => dateAliases.contains (strLower c)) cols

/-- First column with exactly this name (pandas `df[name]` resolution). -/
def idxOfName (name : String) (cols : List String) : Option Nat :=
  findCol (fun c => c == name) cols

/-- How many columns a pandas label-based selection `df[name]` grabs
after the line-58 rename: every column whose stripped label equals
`name`.  Lines 69 and 88 assume this is exactly 1 (a single Series);
with a duplicated label the selection is a multi-column frame. -/
def labelCount (name : String) (cols : List String) : Nat :=
  (cols.filter (fun c => c == name)).length

/-- Column assignment `df[name] = f(row)`: overwrite the first column of
that name if it exists, otherwise append a new column on the right.
Returns the new header, the new rows and the index of the column.
Rows are conformed to the header width (DataFrames are rectangular). -/
def setColumn (cols : List String) (rows : List (List Val)) (name : String)
    (f : List Val → Val) : List String × List (List Val) × Nat :=
  match idxOfName name cols with
  | some i =>
    (cols, rows.map (fun r => (conform cols.length r).set i (f (conform cols.length r))), i)
  | none =>
    (cols ++ [name], rows.map (fun r => conform cols.length r ++ [f (conform cols.length r)]),
      cols.length)

/-- `df.drop(columns=[name])` (first column of that name). -/
def dropColumn (cols : List String) (rows : List (List Val)) (name : String) :
    List String × List (List Val) :=
  match idxOfName name cols with
  | some i => (cols.eraseIdx i, rows.map (fun r => r.eraseIdx i))
  | none => (cols, rows)

/-- `drop_duplicates` keyed by `k`, keeping the first occurrence of each key. -/
def dedupKeyedAux {α β : Type} [DecidableEq β] (k : α → β) (seen : List β) :
    List α → List α
  | [] => []
  | x :: xs =>
    if k x ∈ seen then dedupKeyedAux k seen xs
    else x :: dedupKeyedAux k (k x :: seen) xs

/-- `drop_duplicates` keyed by `k` over a whole list. -/
def dedupKeyed {α β : Type} [DecidableEq β] (k : α → β) (l : List α) : List α :=
  dedupKeyedAux k [] l

/-- The Monday starting the ISO (Monday–Sunday) week of day `d`
(`to_period("W").start_time`), under the day-0-is-Monday convention. -/
def mondayOf (d : Nat) : Nat := d - d % 7

/-- `.dt.date` on a datetime cell (time-of-day already discarded). -/
def dtToDate : Val → Val
  | .vdate d => .vdate d
  | _ => .na

/-- `to_period("W").apply(lambda r: r.start_time.date() if pd.notna(r) else pd.NaT)`. -/
def weekStart : Val → Val
  | .vdate d => .vdate (mondayOf d)
  | _ => .na

/-- `pd.to_datetime(cell, errors="coerce")`: NaN stays NaT, strings go
through the lenient parser (`none` = coerced to NaT), datetimes pass. -/
def toDatetime (parse : String → Option Nat) : Val → Val
  | .na => .na
  | .vstr s => match parse s with | some d => .vdate d | none => .na
  | .vdate d => .vdate d
  | .vbool _ => .na

/-! ## The stages of `clean_leads`, one definition per source statement. -/

/-- Line 58: `df.rename(columns={c: c.strip() for c in df.columns})`. -/
def strippedCols (t : Table) : List String := t.cols.map pyStrip

/-- Lines 61–69 with pandas duplicate-label semantics: the email column
resolves to the first case-insensitive `email` match, but the line-69
`.astype(str).str.strip()` call succeeds only when the resolved label is
unique among the renamed headers; `none` models the uncaught
`AttributeError` raised by `.str` on a multi-column selection (and the
`ValueError` of line 66 when no column matches at all). -/
def emailColSelect (t : Table) : Option Nat :=
  match findEmailIdx (strippedCols t) with
  | none => none
  | some ei =>
    if labelCount ((strippedCols t).getD ei "") (strippedCols t) = 1
    then some ei else none

/-- The trimmed string of a raw row's email cell, i.e.
`str(cell).strip()` of the rectangular row's entry at the email column. -/
def rawEmailTrim (t : Table) (ei : Nat) (r : List Val) : String :=
  pyStrip (valToPyStr (getV (conform t.cols.length r) ei))

/-- Line 69: `df[email_col] = df[email_col].astype(str).str.strip()`
(applied to the rectangular rows). -/
def trimmedRows (t : Table) (ei : Nat) : List (List Val) :=
  t.rows.map (fun r => (conform t.cols.length r).set ei (.vstr (rawEmailTrim t ei r)))

/-- Line 72: `df["__valid_email"] = df[email_col].apply(valid_email)`. -/
def markerCR (t : Table) (ei : Nat) : List String × List (List Val) × Nat :=
  setColumn (strippedCols t) (trimmedRows t ei) "__valid_email"
    (fun r => .vbool (valid_email (getV r ei)))

/-- Line 73: `valid_df = df[df["__valid_email"]].copy()`. -/
def validRows (t : Table) (ei : Nat) : List (List Val) :=
  (markerCR t ei).2.1.filter (fun r => getV r (markerCR t ei).2.2 == .vbool true)

/-- Line 74: `invalid_count = len(df) - len(valid_df)`. -/
def invalidCount (t : Table) (ei : Nat) : Nat :=
  t.rows.length - (validRows t ei).length

/-- Line 78: `valid_df.drop_duplicates(subset=[email_col])` (keep first). -/
def dedupRows (t : Table) (ei : Nat) : List (List Val) :=
  dedupKeyed (fun r => getV r ei) (validRows t ei)

/-- Line 79: `removed_dups = before - len(valid_df)`. -/
def removedDups (t : Table) (ei : Nat) : Nat :=
  (validRows t ei).length - (dedupRows t ei).length

/-- Lines 82–92: resolve the date-like column over `df.columns` (which by
now includes the marker), parse it in place if found, otherwise create a
synthetic `date` column full of NaT. -/
def dateCR (parse : String → Option Nat) (t : Table) (ei : Nat) :
    List String × List (List Val) × Nat :=
  match findDateIdx (markerCR t ei).1 with
  | some di =>
    ((markerCR t ei).1,
      (dedupRows t ei).map (fun r => r.set di (toDatetime parse (getV r di))), di)
  | none => setColumn (markerCR t ei).1 (dedupRows t ei) "date" (fun _ => Val.na)

/-- The parsed date cell of a surviving row after lines 87–92: the
`to_datetime` value of the resolved date column, or NaT when no
date-like column exists (the synthetic `date` column is all NaT). -/
def dateValOf (parse : String → Option Nat) (t : Table) (ei : Nat) (r : List Val) : Val :=
  match findDateIdx (markerCR t ei).1 with
  | some di => toDatetime parse (getV r di)
  | none => Val.na

/-- Line 95: `valid_df["lead_day"] = valid_df[date_col].dt.date`. -/
def dayCR (parse : String → Option Nat) (t : Table) (ei : Nat) :
    List String × List (List Val) × Nat :=
  setColumn (dateCR parse t ei).1 (dateCR parse t ei).2.1 "lead_day"
    (fun r => dtToDate (getV r (dateCR parse t ei).2.2))

/-- Line 96: `valid_df["lead_week"] = ...start_time.date()...`. -/
def weekCR (parse : String → Option Nat) (t : Table) (ei : Nat) :
    List String × List (List Val) × Nat :=
  setColumn (dayCR parse t ei).1 (dayCR parse t ei).2.1 "lead_week"
    (fun r => weekStart (getV r (dateCR parse t ei).2.2))

/-- Line 99: `valid_df.drop(columns=["__valid_email"])`, packaged as the
output table of `clean_leads`. -/
def cleanTable (parse : String → Option Nat) (t : Table) (ei : Nat) : Table :=
  let s5 := dropColumn (weekCR parse t ei).1 (weekCR parse t ei).2.1 "__valid_email"
  ⟨s5.1, s5.2⟩

/-- `clean_leads(df)`: the whole cleaning stage.  `.error` models the
`ValueError("Input CSV must contain an 'email' column")` raised when no
column is case-insensitively named `email`. -/
def clean_leads (parse : String → Option Nat) (t : Table) :
    Except String (Table × Nat × Nat) :=
  match findEmailIdx (strippedCols t) with
  | none => .error "Input CSV must contain an 'email' column"
  | some ei => .ok (cleanTable parse t ei, invalidCount t ei, removedDups t ei)

/-! ## `generate_report` -/

/-- The report scalars and the two count tables (sheet writing is I/O). -/
structure Report where
  daily : List (Val × Nat)
  weekly : List (Val × Nat)
  totalLeads : Nat
  uniqueCustomers : Nat
deriving DecidableEq, Repr

/-- Sort key used for the ascending group order (dates by day number). -/
def valKey : Val → Nat
  | .vdate d => d
  | _ => 0

/-- Pandas ascending key sort of the distinct group keys. -/
def sortVals (vs : List Val) : List Val :=
  vs.insertionSort (fun a b => valKey a ≤ valKey b)

/-- `df.groupby(keyCol)[emailCol].count()`: default `dropna=True` drops
missing keys, keys ascending (`sort=True`), and `count()` counts
non-missing entries of the selected column within each group. -/
def groupCount (t : Table) (keyCol emailCol : String) : List (Val × Nat) :=
  match idxOfName keyCol t.cols with
  | none => []
  | some ki =>
    let eidx := idxOfName emailCol t.cols
    let nonNaE : List Val → Bool := fun r =>
      match eidx with
      | some j => !(getV r j).isNa
      | none => false
    let keys := (t.rows.map (fun r => getV r ki)).filter (fun v => !v.isNa)
    (sortVals (dedupKeyed id keys)).map (fun kv =>
      (kv, (t.rows.filter (fun r => getV r ki == kv && nonNaE r)).length))

/-- `df[name].nunique()`: distinct non-missing values of a column. -/
def nunique (t : Table) (name : String) : Nat :=
  match idxOfName name t.cols with
  | none => 0
  | some i =>
    (dedupKeyed id ((t.rows.map (fun r => getV r i)).filter (fun v => !v.isNa))).length

/-- `generate_report(df, email_col, ...)` minus the Excel I/O: the daily
and weekly count tables (guarded on the column being present) and the
two summary scalars. -/
def generate_report (t : Table) (emailCol : String) : Report :=
  { daily := if (idxOfName "lead_day" t.cols).isSome then groupCount t "lead_day" emailCol else []
    weekly := if (idxOfName "lead_week" t.cols).isSome then groupCount t "lead_week" emailCol else []
    totalLeads := t.rows.length
    uniqueCustomers := nunique t emailCol }

/-! ## `main` -/

/-- `main`'s second email-column scan over the cleaned frame, returning
the column's name. -/
def mainEmailCol (t : Table) : Option String :=
  (findEmailIdx t.cols).map (fun i => t.cols.getD i "")

/-- `main` after loading: clean, then report.  A `ValueError` from
`clean_leads` is caught and turned into `sys.exit(2)` (the `.error`
branch); on success the report is generated from the cleaned table. -/
def runPipeline (parse : String → Option Nat) (t : Table) :
    Except String (Table × Nat × Nat × Report) :=
  match clean_leads parse t with
  | .error e => .error e
  | .ok x => .ok (x.1, x.2.1, x.2.2, generate_report x.1 ((mainEmailCol x.1).getD ""))

/-- The §4.2 validity predicate as the spec words it: the whole character
sequence splits as a nonempty local part over `[A-Za-z0-9_.+-]`, a literal
`@`, a nonempty dot-free domain over `[A-Za-z0-9-]`, a literal dot, and a
nonempty final segment over `[A-Za-z0-9-.]`. -/
def specEmailOk (cs : List Char) : Prop :=
  ∃ l d tl : List Char,
    cs = l ++ '@' :: (d ++ '.' :: tl) ∧
    l ≠ [] ∧ (∀ c ∈ l, isLocalChar c = true) ∧
    d ≠ [] ∧ (∀ c ∈ d, isDomainChar c = true) ∧
    tl ≠ [] ∧ (∀ c ∈ tl, isTldChar c = true)

/-- Read the cell of a named column of a table's row (`row[name]`). -/
def getByName (t : Table) (r : List Val) (name : String) : Val :=
  match idxOfName name t.cols with
  | some i => getV r i
  | none => Val.na

/-- A cell as `to_csv` writes it and `read_csv(dtype=str)` reads it back:
NaN/NaT and the empty string become an empty field (read back as NaN),
other strings round-trip verbatim, datetimes go through the external
serializer, booleans print as Python does. -/
def writeCell (ser : Nat → String) : Val → Option String
  | .na => none
  | .vstr s => if s = "" then none else some s
  | .vdate d => some (ser d)
  | .vbool b => some (if b then "True" else "False")

/-- `read_csv(dtype=str)` cell: an empty field is NaN, otherwise a string. -/
def readCell : Option String → Val
  | none => .na
  | some s => .vstr s

/-- Writing a table to CSV and reading it back. -/
def roundTrip (ser : Nat → String) (t : Table) : Table :=
  ⟨t.cols, t.rows.map (fun r => r.map (fun v => readCell (writeCell ser v)))⟩

/-- What `read_csv(dtype=str)` guarantees about an input table: it is
rectangular and every cell is NaN or a nonempty string. -/
def csvShaped (t : Table) : Prop :=
  (∀ r ∈ t.rows, r.length = t.cols.length) ∧
  ∀ r ∈ t.rows, ∀ v ∈ r, v = Val.na ∨ ∃ s, v = Val.vstr s ∧ s ≠ ""

/-- The input does not already use the pipeline's derived column names. -/
def reservedFree (t : Table) : Prop :=
  "__valid_email" ∉ strippedCols t ∧ "lead_day" ∉ strippedCols t ∧
    "lead_week" ∉ strippedCols t

/-! ## Basic lemmas about row access, `conform`, `findCol` and `pyStrip` -/

theorem getD_set_eq {γ : Type} (r : List γ) (d : γ) (i : Nat) (v : γ) (h : i < r.length) :
    (r.set i v).getD i d = v := by
  induction r generalizing i with
  | nil => simp at h
  | cons a t ih =>
    cases i with
    | zero => rfl
    | succ n => exact ih n (Nat.succ_lt_succ_iff.mp (by simpa using h))

theorem getD_set_ne {γ : Type} (r : List γ) (d : γ) (i j : Nat) (v : γ) (h : i ≠ j) :
    (r.set i v).getD j d = r.getD j d := by
  induction r generalizing i j with
  | nil => rfl
  | cons a t ih =>
    cases i with
    | zero =>
      cases j with
      | zero => exact absurd rfl h
      | succ m => rfl
    | succ n =>
      cases j with
      | zero => rfl
      | succ m => exact ih n m (fun hc => h (by rw [hc]))

theorem getD_append_left {γ : Type} (r l : List γ) (d : γ) (j : Nat) (h : j < r.length) :
    (r ++ l).getD j d = r.getD j d := by
  induction r generalizing j with
  | nil => simp at h
  | cons a t ih =>
    cases j with
    | zero => rfl
    | succ m => exact ih m (Nat.succ_lt_succ_iff.mp (by simpa using h))

theorem getD_append_right {γ : Type} (r : List γ) (d : γ) (v : γ) :
    (r ++ [v]).getD r.length d = v := by
  induction r with
  | nil => rfl
  | cons a t ih => exact ih

theorem getD_eraseIdx_lt {γ : Type} (r : List γ) (d : γ) (m j : Nat) (h : j < m) :
    (r.eraseIdx m).getD j d = r.getD j d := by
  induction r generalizing m j with
  | nil => rfl
  | cons a t ih =>
    cases m with
    | zero => simp at h
    | succ n =>
      cases j with
      | zero => rfl
      | succ i => exact ih n i (Nat.succ_lt_succ_iff.mp h)

theorem getD_eraseIdx_ge {γ : Type} (r : List γ) (d : γ) (m j : Nat) (h : m ≤ j) :
    (r.eraseIdx m).getD j d = r.getD (j + 1) d := by
  induction r generalizing m j with
  | nil => rfl
  | cons a t ih =>
    cases m with
    | zero => rfl
    | succ n =>
      cases j with
      | zero => simp at h
      | succ i => exact ih n i (Nat.succ_le_succ_iff.mp h)

theorem getV_set_eq (r : List Val) (i : Nat) (v : Val) (h : i < r.length) :
    getV (r.set i v) i = v :=
  getD_set_eq r Val.na i v h

theorem getV_set_ne (r : List Val) (i j : Nat) (v : Val) (h : i ≠ j) :
    getV (r.set i v) j = getV r j :=
  getD_set_ne r Val.na i j v h

theorem getV_append_left (r l : List Val) (j : Nat) (h : j < r.length) :
    getV (r ++ l) j = getV r j :=
  getD_append_left r l Val.na j h

theorem getV_append_right (r : List Val) (v : Val) :
    getV (r ++ [v]) r.length = v :=
  getD_append_right r Val.na v

theorem getV_eraseIdx_lt (r : List Val) (m j : Nat) (h : j < m) :
    getV (r.eraseIdx m) j = getV r j :=
  getD_eraseIdx_lt r Val.na m j h

theorem getV_eraseIdx_ge (r : List Val) (m j : Nat) (h : m ≤ j) :
    getV (r.eraseIdx m) j = getV r (j + 1) :=
  getD_eraseIdx_ge r Val.na m j h

theorem length_conform (n : Nat) (r : List Val) : (conform n r).length = n := by
  simp only [conform, List.length_append, List.length_take, List.length_replicate]
  omega

theorem conform_eq_self (n : Nat) (r : List Val) (h : r.length = n) :
    conform n r = r := by
  subst h; simp [conform]

theorem conform_succ_cons (m : Nat) (a : Val) (t : List Val) :
    conform (m + 1) (a :: t) = a :: conform m t := by
  simp [conform]

theorem conform_succ_nil (m : Nat) :
    conform (m + 1) ([] : List Val) = Val.na :: conform m [] := by
  simp [conform, List.replicate_succ]

theorem getV_conform (n : Nat) (r : List Val) (i : Nat) (h : i < n) :
    getV (conform n r) i = getV r i := by
  induction n generalizing r i with
  | zero => omega
  | succ m ih =>
    cases r with
    | nil =>
      rw [conform_succ_nil]
      cases i with
      | zero => rfl
      | succ j => exact (ih [] j (by omega)).trans rfl
    | cons a t =>
      rw [conform_succ_cons]
      cases i with
      | zero => rfl
      | succ j => exact ih t j (by omega)

theorem findCol_lt {p : String → Bool} :
    ∀ {l : List String} {i : Nat}, findCol p l = some i → i < l.length := by
  intro l
  induction l with
  | nil => intro i h; simp [findCol] at h
  | cons c cs ih =>
    intro i h
    cases hp : p c with
    | true =>
      simp [findCol, hp] at h
      simp only [List.length_cons]
      omega
    | false =>
      simp [findCol, hp, Option.map_eq_some'] at h
      obtain ⟨a, ha, hi⟩ := h
      have := ih ha
      simp only [List.length_cons]
      omega

theorem findCol_prop {p : String → Bool} (d : String) :
    ∀ {l : List String} {i : Nat}, findCol p l = some i → p (l.getD i d) = true := by
  intro l
  induction l with
  | nil => intro i h; simp [findCol] at h
  | cons c cs ih =>
    intro i h
    cases hp : p c with
    | true =>
      simp [findCol, hp] at h
      have hi : i = 0 := by omega
      subst hi
      simpa using hp
    | false =>
      simp [findCol, hp, Option.map_eq_some'] at h
      obtain ⟨a, ha, hi⟩ := h
      have hi' : i = a + 1 := by omega
      subst hi'
      simpa using ih ha

theorem findCol_first {p : String → Bool} (d : String) :
    ∀ {l : List String} {i : Nat}, findCol p l = some i →
      ∀ j, j < i → p (l.getD j d) = false := by
  intro l
  induction l with
  | nil => intro i h; simp [findCol] at h
  | cons c cs ih =>
    intro i h j hj
    cases hp : p c with
    | true =>
      exfalso
      simp [findCol, hp] at h
      omega
    | false =>
      simp [findCol, hp, Option.map_eq_some'] at h
      obtain ⟨a, ha, hi⟩ := h
      cases j with
      | zero => simpa using hp
      | succ m => exact ih ha m (by omega)

theorem findCol_none_iff {p : String → Bool} {l : List String} :
    findCol p l = none ↔ ∀ c ∈ l, p c = false := by
  induction l with
  | nil => simp [findCol]
  | cons c cs ih =>
    cases hp : p c with
    | true => simp [findCol, hp]
    | false => simp [findCol, hp, Option.map_eq_none', ih]

theorem findCol_append {p : String → Bool} {l₁ : List String} {i : Nat}
    (l₂ : List String) (h : findCol p l₁ = some i) :
    findCol p (l₁ ++ l₂) = some i := by
  induction l₁ generalizing i with
  | nil => simp [findCol] at h
  | cons c cs ih =>
    cases hp : p c with
    | true =>
      simp [findCol, hp] at h
      simp [findCol, hp]
      omega
    | false =>
      simp [findCol, hp, Option.map_eq_some'] at h
      obtain ⟨a, ha, hi⟩ := h
      simp [List.cons_append, findCol, hp, ih ha]
      omega

theorem findCol_append_none {p : String → Bool} {l₁ : List String}
    (l₂ : List String) (h : findCol p l₁ = none) :
    findCol p (l₁ ++ l₂) = (findCol p l₂).map (· + l₁.length) := by
  induction l₁ with
  | nil => simp [Option.map_id']
  | cons c cs ih =>
    cases hp : p c with
    | true => simp [findCol, hp] at h
    | false =>
      simp [findCol, hp, Option.map_eq_none'] at h
      simp only [List.cons_append]
      have hstep : findCol p (c :: (cs ++ l₂)) = (findCol p (cs ++ l₂)).map (· + 1) := by
        simp [findCol, hp]
      rw [hstep, ih h]
      cases findCol p l₂ with
      | none => rfl
      | some a =>
        simp only [Option.map_some', Option.some.injEq, List.length_cons]
        omega

theorem findCol_append_singleton {p : String → Bool} (l : List String)
    {x : String} (hx : p x = false) :
    findCol p (l ++ [x]) = findCol p l := by
  cases h : findCol p l with
  | some i => exact findCol_append [x] h
  | none =>
    rw [findCol_append_none [x] h]
    simp [findCol, hx]

theorem findCol_eraseIdx_some {p : String → Bool} :
    ∀ {l : List String} {m i : Nat},
      (∀ x, l[m]? = some x → p x = false) → findCol p l = some i →
      findCol p (l.eraseIdx m) = some (if i < m then i else i - 1) := by
  intro l
  induction l with
  | nil => intro m i _ h; simp [findCol] at h
  | cons c cs ih =>
    intro m i hm h
    cases m with
    | zero =>
      have hc : p c = false := hm c (by simp)
      simp [findCol, hc, Option.map_eq_some'] at h
      obtain ⟨a, ha, hi⟩ := h
      show findCol p cs = some (if i < 0 then i else i - 1)
      rw [ha, if_neg (by omega)]
      congr 1
      omega
    | succ n =>
      cases hp : p c with
      | true =>
        simp [findCol, hp] at h
        show findCol p (c :: cs.eraseIdx n) = some (if i < n + 1 then i else i - 1)
        have hi0 : i = 0 := by omega
        subst hi0
        rw [if_pos (Nat.succ_pos n)]
        simp [findCol, hp]
      | false =>
        simp [findCol, hp, Option.map_eq_some'] at h
        obtain ⟨a, ha, hi⟩ := h
        have hm' : ∀ x, cs[n]? = some x → p x = false := by
          intro x hx
          exact hm x (by simpa using hx)
        have hrec := ih hm' ha
        have hane : a ≠ n := by
          intro hc
          subst hc
          have halt := findCol_lt ha
          have hfalse := hm' (cs.getD a "")
            (by simp [List.getElem?_eq_getElem halt, List.getD_eq_getElem?_getD])
          have htrue := findCol_prop "" ha
          rw [htrue] at hfalse
          exact Bool.noConfusion hfalse
        show findCol p (c :: cs.eraseIdx n) = some (if i < n + 1 then i else i - 1)
        have hstep : findCol p (c :: cs.eraseIdx n) =
            (findCol p (cs.eraseIdx n)).map (· + 1) := by
          simp [findCol, hp]
        rw [hstep, hrec]
        simp only [Option.map_some', Option.some.injEq]
        rcases Nat.lt_or_ge a n with hc2 | hc2
        · rw [if_pos hc2, if_pos (by omega)]
          omega
        · rw [if_neg (by omega), if_neg (by omega)]
          omega

theorem findCol_eraseIdx_none {p : String → Bool} {l : List String} {m : Nat}
    (h : findCol p l = none) : findCol p (l.eraseIdx m) = none := by
  rw [findCol_none_iff] at h ⊢
  intro c hc
  exact h c ((l.eraseIdx_sublist m).mem hc)

theorem pyStrip_data (s : String) :
    (pyStrip s).data = List.rdropWhile isPySpace (s.data.dropWhile isPySpace) := rfl

theorem pyStrip_idem (s : String) : pyStrip (pyStrip s) = pyStrip s := by
  have key : ∀ l : List Char,
      List.rdropWhile isPySpace (List.dropWhile isPySpace
        (List.rdropWhile isPySpace (List.dropWhile isPySpace l))) =
      List.rdropWhile isPySpace (List.dropWhile isPySpace l) := by
    intro l
    have h1 : List.dropWhile isPySpace
        (List.rdropWhile isPySpace (List.dropWhile isPySpace l)) =
        List.rdropWhile isPySpace (List.dropWhile isPySpace l) := by
      rw [List.dropWhile_eq_self_iff]
      intro hl
      set A := List.dropWhile isPySpace l with hA
      have hpre : List.rdropWhile isPySpace A <+: A := List.rdropWhile_prefix _ _
      have hlen : 0 < A.length := Nat.lt_of_lt_of_le hl hpre.length_le
      have hAne : A ≠ [] := List.length_pos.mp hlen
      have hgp : (List.rdropWhile isPySpace A).get ⟨0, hl⟩ = A.get ⟨0, hlen⟩ := by
        rw [List.get_eq_getElem, List.get_eq_getElem]
        exact hpre.getElem hl
      have hw : isPySpace (A.head hAne) = false :=
        List.head_dropWhile_not isPySpace l hAne
      rw [List.head_eq_getElem] at hw
      rw [hgp]
      intro hq
      rw [List.get_eq_getElem] at hq
      rw [hw] at hq
      exact Bool.noConfusion hq
    rw [h1, List.rdropWhile_idempotent]
  apply congrArg String.mk
  show List.rdropWhile isPySpace (List.dropWhile isPySpace
      (List.rdropWhile isPySpace (List.dropWhile isPySpace s.data))) =
    List.rdropWhile isPySpace (List.dropWhile isPySpace s.data)
  exact key s.data

/-! ## Deduplication lemmas -/

theorem dedupKeyedAux_sublist {α β : Type} [DecidableEq β] (k : α → β) :
    ∀ (l : List α) (seen : List β), List.Sublist (dedupKeyedAux k seen l) l := by
  intro l
  induction l with
  | nil => intro seen; exact List.Sublist.refl _
  | cons x xs ih =>
    intro seen
    by_cases hx : k x ∈ seen
    · rw [show dedupKeyedAux k seen (x :: xs) = dedupKeyedAux k seen xs from by
        simp [dedupKeyedAux, hx]]
      exact (ih seen).cons x
    · rw [show dedupKeyedAux k seen (x :: xs) = x :: dedupKeyedAux k (k x :: seen) xs from by
        simp [dedupKeyedAux, hx]]
      exact (ih _).cons₂ x

theorem mem_dedupKeyedAux {α β : Type} [DecidableEq β] (k : α → β) :
    ∀ (l : List α) (seen : List β) (y : α),
      y ∈ dedupKeyedAux k seen l ↔
        k y ∉ seen ∧ ∃ l₁ l₂, l = l₁ ++ y :: l₂ ∧ ∀ z ∈ l₁, k z ≠ k y := by
  intro l
  induction l with
  | nil =>
    intro seen y
    constructor
    · intro h
      simp [dedupKeyedAux] at h
    · rintro ⟨-, l₁, l₂, h, -⟩
      exact absurd h (by simp)
  | cons x xs ih =>
    intro seen y
    by_cases hx : k x ∈ seen
    · rw [show dedupKeyedAux k seen (x :: xs) = dedupKeyedAux k seen xs from by
        simp [dedupKeyedAux, hx]]
      rw [ih]
      constructor
      · rintro ⟨hns, l₁, l₂, rfl, hpre⟩
        refine ⟨hns, x :: l₁, l₂, rfl, ?_⟩
        intro z hz
        rcases List.mem_cons.mp hz with rfl | hz'
        · exact fun hc => hns (hc ▸ hx)
        · exact hpre z hz'
      · rintro ⟨hns, l₁, l₂, heq, hpre⟩
        cases l₁ with
        | nil =>
          simp only [List.nil_append, List.cons.injEq] at heq
          obtain ⟨rfl, rfl⟩ := heq
          exact absurd hx hns
        | cons a l₁' =>
          simp only [List.cons_append, List.cons.injEq] at heq
          obtain ⟨rfl, heq'⟩ := heq
          exact ⟨hns, l₁', l₂, heq', fun z hz => hpre z (List.mem_cons_of_mem _ hz)⟩
    · rw [show dedupKeyedAux k seen (x :: xs) = x :: dedupKeyedAux k (k x :: seen) xs from by
        simp [dedupKeyedAux, hx]]
      constructor
      · intro h
        rcases List.mem_cons.mp h with rfl | h'
        · exact ⟨hx, [], xs, rfl, by simp⟩
        · obtain ⟨hns, l₁, l₂, rfl, hpre⟩ := (ih _ y).mp h'
          have hky : k y ≠ k x := fun hc => hns (by rw [hc]; exact List.mem_cons_self _ _)
          refine ⟨fun hc => hns (List.mem_cons_of_mem _ hc), x :: l₁, l₂, rfl, ?_⟩
          intro z hz
          rcases List.mem_cons.mp hz with rfl | hz'
          · exact fun hc => hky hc.symm
          · exact hpre z hz'
      · rintro ⟨hns, l₁, l₂, heq, hpre⟩
        cases l₁ with
        | nil =>
          simp only [List.nil_append, List.cons.injEq] at heq
          obtain ⟨rfl, rfl⟩ := heq
          exact List.mem_cons_self _ _
        | cons a l₁' =>
          simp only [List.cons_append, List.cons.injEq] at heq
          obtain ⟨rfl, heq'⟩ := heq
          have hkxy : k x ≠ k y := hpre x (List.mem_cons_self _ _)
          refine List.mem_cons_of_mem _ ((ih _ y).mpr
            ⟨?_, l₁', l₂, heq', fun z hz => hpre z (List.mem_cons_of_mem _ hz)⟩)
          intro hc
          rcases List.mem_cons.mp hc with hc' | hc'
          · exact hkxy hc'.symm
          · exact hns hc'

theorem nodup_keys_dedupKeyedAux {α β : Type} [DecidableEq β] (k : α → β) :
    ∀ (l : List α) (seen : List β), ((dedupKeyedAux k seen l).map k).Nodup := by
  intro l
  induction l with
  | nil => intro seen; simp [dedupKeyedAux]
  | cons x xs ih =>
    intro seen
    by_cases hx : k x ∈ seen
    · rw [show dedupKeyedAux k seen (x :: xs) = dedupKeyedAux k seen xs from by
        simp [dedupKeyedAux, hx]]
      exact ih seen
    · rw [show dedupKeyedAux k seen (x :: xs) = x :: dedupKeyedAux k (k x :: seen) xs from by
        simp [dedupKeyedAux, hx]]
      rw [List.map_cons, List.nodup_cons]
      constructor
      · intro hc
        obtain ⟨y, hy, hky⟩ := List.mem_map.mp hc
        have := ((mem_dedupKeyedAux k xs _ y).mp hy).1
        exact this (by rw [hky]; exact List.mem_cons_self _ _)
      · exact ih _

theorem key_mem_dedupKeyedAux {α β : Type} [DecidableEq β] (k : α → β) :
    ∀ (l : List α) (seen : List β) (x : α), x ∈ l →
      k x ∈ seen ∨ ∃ y ∈ dedupKeyedAux k seen l, k y = k x := by
  intro l
  induction l with
  | nil =>
    intro seen x hx
    exact absurd hx (by simp)
  | cons a xs ih =>
    intro seen x hx
    by_cases ha : k a ∈ seen
    · rw [show dedupKeyedAux k seen (a :: xs) = dedupKeyedAux k seen xs from by
        simp [dedupKeyedAux, ha]]
      rcases List.mem_cons.mp hx with rfl | hx'
      · exact Or.inl ha
      · exact ih seen x hx'
    · rw [show dedupKeyedAux k seen (a :: xs) = a :: dedupKeyedAux k (k a :: seen) xs from by
        simp [dedupKeyedAux, ha]]
      rcases List.mem_cons.mp hx with rfl | hx'
      · exact Or.inr ⟨x, List.mem_cons_self _ _, rfl⟩
      · rcases ih (k a :: seen) x hx' with hmem | ⟨y, hy, hky⟩
        · rcases List.mem_cons.mp hmem with heq | hmem'
          · exact Or.inr ⟨a, List.mem_cons_self _ _, heq.symm⟩
          · exact Or.inl hmem'
        · exact Or.inr ⟨y, List.mem_cons_of_mem _ hy, hky⟩

theorem dedupKeyedAux_eq_self {α β : Type} [DecidableEq β] (k : α → β) :
    ∀ (l : List α) (seen : List β), (l.map k).Nodup → (∀ x ∈ l, k x ∉ seen) →
      dedupKeyedAux k seen l = l := by
  intro l
  induction l with
  | nil => intro seen _ _; rfl
  | cons x xs ih =>
    intro seen hnd hseen
    have hx : k x ∉ seen := hseen x (List.mem_cons_self _ _)
    rw [show dedupKeyedAux k seen (x :: xs) = x :: dedupKeyedAux k (k x :: seen) xs from by
      simp [dedupKeyedAux, hx]]
    rw [List.map_cons, List.nodup_cons] at hnd
    congr 1
    refine ih _ hnd.2 ?_
    intro z hz hc
    rcases List.mem_cons.mp hc with hc' | hc'
    · exact hnd.1 (hc' ▸ List.mem_map_of_mem k hz)
    · exact hseen z (List.mem_cons_of_mem _ hz) hc'

theorem dedupKeyed_sublist {α β : Type} [DecidableEq β] (k : α → β) (l : List α) :
    List.Sublist (dedupKeyed k l) l :=
  dedupKeyedAux_sublist k l []

theorem mem_dedupKeyed {α β : Type} [DecidableEq β] (k : α → β) (l : List α) (y : α) :
    y ∈ dedupKeyed k l ↔ ∃ l₁ l₂, l = l₁ ++ y :: l₂ ∧ ∀ z ∈ l₁, k z ≠ k y := by
  rw [dedupKeyed, mem_dedupKeyedAux]
  simp

theorem nodup_keys_dedupKeyed {α β : Type} [DecidableEq β] (k : α → β) (l : List α) :
    ((dedupKeyed k l).map k).Nodup :=
  nodup_keys_dedupKeyedAux k l []

theorem key_mem_dedupKeyed {α β : Type} [DecidableEq β] (k : α → β) (l : List α)
    (x : α) (hx : x ∈ l) : ∃ y ∈ dedupKeyed k l, k y = k x := by
  rcases key_mem_dedupKeyedAux k l [] x hx with hmem | h
  · exact absurd hmem (by simp)
  · exact h

theorem dedupKeyed_eq_self {α β : Type} [DecidableEq β] (k : α → β) (l : List α)
    (hnd : (l.map k).Nodup) : dedupKeyed k l = l :=
  dedupKeyedAux_eq_self k l [] hnd (by simp)

/-! ## Column bookkeeping lemmas -/

theorem idxOfName_getD {cols : List String} {name : String} {i : Nat}
    (h : idxOfName name cols = some i) : cols.getD i "" = name := by
  have := findCol_prop "" h
  simpa using this

theorem findCol_le_of_prop {p : String → Bool} {l : List String} {i j : Nat}
    (hfind : findCol p l = some j) (hp : p (l.getD i "") = true) : j ≤ i := by
  by_contra hc
  push_neg at hc
  have := findCol_first "" hfind i (by omega)
  rw [hp] at this
  exact Bool.noConfusion this

theorem findCol_exists_of_prop {p : String → Bool} {l : List String} {i : Nat}
    (hi : i < l.length) (hp : p (l.getD i "") = true) :
    ∃ j, findCol p l = some j ∧ j ≤ i := by
  cases hf : findCol p l with
  | none =>
    exfalso
    rw [findCol_none_iff] at hf
    have hmem : l.getD i "" ∈ l := by
      rw [List.getD_eq_getElem?_getD, List.getElem?_eq_getElem hi]
      exact List.getElem_mem hi
    have := hf _ hmem
    rw [hp] at this
    exact Bool.noConfusion this
  | some j => exact ⟨j, rfl, findCol_le_of_prop hf hp⟩

theorem setColumn_shape (cols : List String) (rows : List (List Val)) (name : String)
    (f : List Val → Val) :
    ∃ g : List Val → List Val,
      (setColumn cols rows name f).2.1 = rows.map g ∧
      (∃ tail : List String, (tail = [] ∨ tail = [name]) ∧
        (setColumn cols rows name f).1 = cols ++ tail) ∧
      idxOfName name (setColumn cols rows name f).1 = some (setColumn cols rows name f).2.2 ∧
      (setColumn cols rows name f).2.2 < (setColumn cols rows name f).1.length ∧
      (setColumn cols rows name f).1.getD (setColumn cols rows name f).2.2 "" = name ∧
      ∀ r : List Val, r.length = cols.length →
        (g r).length = (setColumn cols rows name f).1.length ∧
        getV (g r) (setColumn cols rows name f).2.2 = f r ∧
        ∀ j, j < cols.length → j ≠ (setColumn cols rows name f).2.2 →
          getV (g r) j = getV r j := by
  cases hf : idxOfName name cols with
  | some i =>
    have hsc : setColumn cols rows name f =
        (cols, rows.map (fun r => (conform cols.length r).set i (f (conform cols.length r))), i) := by
      simp [setColumn, hf]
    refine ⟨fun r => (conform cols.length r).set i (f (conform cols.length r)),
      by rw [hsc], ⟨[], Or.inl rfl, by rw [hsc]; simp⟩, by rw [hsc]; exact hf,
      by rw [hsc]; exact findCol_lt hf, by rw [hsc]; exact idxOfName_getD hf, ?_⟩
    intro r hr
    rw [hsc]
    dsimp only
    have hc : conform cols.length r = r := conform_eq_self _ _ hr
    rw [hc]
    refine ⟨by simp [hr], getV_set_eq r i _ (by rw [hr]; exact findCol_lt hf), ?_⟩
    intro j hj hne
    exact getV_set_ne r i j _ (Ne.symm hne)
  | none =>
    have hone : findCol (fun c => c == name) [name] = some 0 := by simp [findCol]
    have hidx : idxOfName name (cols ++ [name]) = some cols.length := by
      rw [idxOfName, findCol_append_none _ hf, hone]
      simp
    have hsc : setColumn cols rows name f =
        (cols ++ [name],
          rows.map (fun r => conform cols.length r ++ [f (conform cols.length r)]),
          cols.length) := by
      simp [setColumn, hf]
    refine ⟨fun r => conform cols.length r ++ [f (conform cols.length r)],
      by rw [hsc], ⟨[name], Or.inr rfl, by rw [hsc]⟩, by rw [hsc]; exact hidx,
      by rw [hsc]; simp, by rw [hsc]; exact getD_append_right cols "" name, ?_⟩
    intro r hr
    rw [hsc]
    dsimp only
    have hc : conform cols.length r = r := conform_eq_self _ _ hr
    rw [hc]
    refine ⟨by simp [hr], ?_, ?_⟩
    · rw [← hr]
      exact getV_append_right r (f r)
    · intro j hj hne
      exact getV_append_left r _ j (by omega)

theorem dropColumn_eq {cols : List String} {rows : List (List Val)} {name : String}
    {m : Nat} (hf : idxOfName name cols = some m) :
    dropColumn cols rows name = (cols.eraseIdx m, rows.map (fun r => r.eraseIdx m)) := by
  simp [dropColumn, hf]

theorem findCol_setColumn_cols {p : String → Bool} (cols : List String)
    (rows : List (List Val)) (name : String) (f : List Val → Val)
    (hpn : p name = false) :
    findCol p (setColumn cols rows name f).1 = findCol p cols := by
  cases hf : idxOfName name cols with
  | some i => simp [setColumn, hf]
  | none =>
    have : (setColumn cols rows name f).1 = cols ++ [name] := by simp [setColumn, hf]
    rw [this]
    exact findCol_append_singleton cols hpn

/-! ## Structure of the cleaning stages -/

theorem setColumn_rows_length (cols : List String) (rows : List (List Val))
    (name : String) (f : List Val → Val) :
    (setColumn cols rows name f).2.1.length = rows.length := by
  cases hf : idxOfName name cols <;> simp [setColumn, hf]

theorem strippedCols_length (t : Table) : (strippedCols t).length = t.cols.length := by
  rw [strippedCols, List.length_map]

theorem trimmedRows_length (t : Table) (ei : Nat) :
    (trimmedRows t ei).length = t.rows.length := by
  rw [trimmedRows, List.length_map]

theorem trimmedRows_mem_length (t : Table) (ei : Nat) :
    ∀ r ∈ trimmedRows t ei, r.length = (strippedCols t).length := by
  intro r hr
  obtain ⟨r₀, _, rfl⟩ := List.mem_map.mp hr
  rw [List.length_set, length_conform, strippedCols_length]

theorem validRows_decomp (t : Table) (ei : Nat)
    (h : findEmailIdx (strippedCols t) = some ei) :
    ∃ gB : List Val → List Val,
      validRows t ei =
        ((trimmedRows t ei).filter (fun r => valid_email (getV r ei))).map gB ∧
      (∀ r : List Val, r.length = (strippedCols t).length →
        getV (gB r) ei = getV r ei ∧ (gB r).length = (markerCR t ei).1.length) ∧
      idxOfName "__valid_email" (markerCR t ei).1 = some (markerCR t ei).2.2 ∧
      (∃ tailB : List String, (∀ x ∈ tailB, x = "__valid_email") ∧
        (markerCR t ei).1 = strippedCols t ++ tailB) := by
  have hein : ei < (strippedCols t).length := findCol_lt h
  have heiname : strLower ((strippedCols t).getD ei "") = "email" := by
    have := findCol_prop "" h
    simpa using this
  have hM : markerCR t ei = setColumn (strippedCols t) (trimmedRows t ei) "__valid_email"
      (fun r => Val.vbool (valid_email (getV r ei))) := rfl
  obtain ⟨gB, hBrows, ⟨tailB, htailB, hBcols⟩, hBidx, hBlt, hBname, hBcell⟩ :=
    setColumn_shape (strippedCols t) (trimmedRows t ei) "__valid_email"
      (fun r => .vbool (valid_email (getV r ei)))
  rw [← hM] at hBrows hBidx hBlt hBname hBcell hBcols
  have hcol1ei : (markerCR t ei).1.getD ei "" = (strippedCols t).getD ei "" := by
    rw [hBcols]
    exact getD_append_left _ _ _ _ hein
  have hmi_ne_ei : ei ≠ (markerCR t ei).2.2 := by
    intro hc
    rw [← hc] at hBname
    rw [hcol1ei] at hBname
    rw [hBname] at heiname
    exact absurd heiname (by decide)
  refine ⟨gB, ?_, ?_, ?_, ⟨tailB, ?_, ?_⟩⟩
  · unfold validRows
    rw [hBrows, List.filter_map]
    congr 1
    apply List.filter_congr
    intro r hr
    have hlen := trimmedRows_mem_length t ei r hr
    have hcell := (hBcell r hlen).2.1
    show (getV (gB r) (markerCR t ei).2.2 == Val.vbool true) = valid_email (getV r ei)
    rw [show getV (gB r) (markerCR t ei).2.2 = Val.vbool (valid_email (getV r ei)) from hcell]
    cases valid_email (getV r ei) <;> rfl
  · intro r hlen
    refine ⟨?_, (hBcell r hlen).1⟩
    exact (hBcell r hlen).2.2 ei hein (hmi_ne_ei)
  · exact hBidx
  · rcases htailB with rfl | rfl
    · intro x hx
      exact absurd hx (by simp)
    · intro x hx
      simpa using hx
  · exact hBcols

theorem validRows_length_le (t : Table) (ei : Nat) :
    (validRows t ei).length ≤ t.rows.length := by
  have h1 : (markerCR t ei).2.1.length = t.rows.length := by
    rw [markerCR, setColumn_rows_length, trimmedRows_length]
  calc (validRows t ei).length
      ≤ (markerCR t ei).2.1.length := List.length_filter_le _ _
    _ = t.rows.length := h1

theorem dedupRows_length_le (t : Table) (ei : Nat) :
    (dedupRows t ei).length ≤ (validRows t ei).length :=
  (dedupKeyed_sublist _ _).length_le

theorem dedupRows_keys_nodup (t : Table) (ei : Nat) :
    ((dedupRows t ei).map (fun r => getV r ei)).Nodup :=
  nodup_keys_dedupKeyed _ _

theorem dedupRows_subset_valid (t : Table) (ei : Nat) :
    ∀ rr ∈ dedupRows t ei, rr ∈ validRows t ei := by
  intro rr hrr
  exact (dedupKeyed_sublist (fun r => getV r ei) (validRows t ei)).subset hrr

theorem validRows_emails_eq (t : Table) (ei : Nat)
    (h : findEmailIdx (strippedCols t) = some ei) :
    (validRows t ei).map (fun r => getV r ei)
      = (t.rows.filter (fun r₀ => valid_email (.vstr (rawEmailTrim t ei r₀)))).map
          (fun r₀ => .vstr (rawEmailTrim t ei r₀)) := by
  have hein : ei < (strippedCols t).length := findCol_lt h
  obtain ⟨gB, hVR, hgB, -, -⟩ := validRows_decomp t ei h
  have hu : ∀ r₀ : List Val,
      getV ((conform t.cols.length r₀).set ei (.vstr (rawEmailTrim t ei r₀))) ei
        = .vstr (rawEmailTrim t ei r₀) := by
    intro r₀
    exact getV_set_eq _ ei _ (by rw [length_conform, ← strippedCols_length]; exact hein)
  have hfun : ((fun r => valid_email (getV r ei)) ∘
      fun r => (conform t.cols.length r).set ei (Val.vstr (rawEmailTrim t ei r)))
      = (fun r₀ => valid_email (Val.vstr (rawEmailTrim t ei r₀))) := by
    funext r₀
    show valid_email (getV ((conform t.cols.length r₀).set ei
      (Val.vstr (rawEmailTrim t ei r₀))) ei) = _
    rw [hu r₀]
  rw [hVR, List.map_map]
  rw [trimmedRows, List.filter_map, List.map_map]
  rw [hfun]
  apply List.map_congr_left
  intro r₀ hr₀
  have hr₀len : ((conform t.cols.length r₀).set ei (.vstr (rawEmailTrim t ei r₀))).length
      = (strippedCols t).length := by
    rw [List.length_set, length_conform, strippedCols_length]
  show getV (gB ((conform t.cols.length r₀).set ei (.vstr (rawEmailTrim t ei r₀)))) ei
      = .vstr (rawEmailTrim t ei r₀)
  rw [(hgB _ hr₀len).1, hu r₀]

theorem validRows_mem_email (t : Table) (ei : Nat)
    (h : findEmailIdx (strippedCols t) = some ei) :
    ∀ rr ∈ validRows t ei, ∃ s, getV rr ei = .vstr s ∧
      valid_email (.vstr s) = true ∧ pyStrip s = s := by
  intro rr hrr
  have hmem : getV rr ei ∈ (validRows t ei).map (fun r => getV r ei) :=
    List.mem_map_of_mem _ hrr
  rw [validRows_emails_eq t ei h] at hmem
  obtain ⟨r₀, hr₀, hcell⟩ := List.mem_map.mp hmem
  have hr₀f := List.of_mem_filter hr₀
  refine ⟨rawEmailTrim t ei r₀, hcell.symm, hr₀f, ?_⟩
  rw [rawEmailTrim]
  exact pyStrip_idem _

theorem idxOfName_append {cols : List String} {name : String} {i : Nat}
    (tail : List String) (h : idxOfName name cols = some i) :
    idxOfName name (cols ++ tail) = some i :=
  findCol_append tail h

theorem cleanTable_shape (parse : String → Option Nat) (t : Table) (ei : Nat)
    (h : findEmailIdx (strippedCols t) = some ei) :
    ∃ (pe pday pweek : Nat) (G : List Val → List Val),
      findEmailIdx (cleanTable parse t ei).cols = some pe ∧
      idxOfName ((cleanTable parse t ei).cols.getD pe "") (cleanTable parse t ei).cols
        = some pe ∧
      strLower ((cleanTable parse t ei).cols.getD pe "") = "email" ∧
      idxOfName "lead_day" (cleanTable parse t ei).cols = some pday ∧
      idxOfName "lead_week" (cleanTable parse t ei).cols = some pweek ∧
      (cleanTable parse t ei).rows = (dedupRows t ei).map G ∧
      ∀ r ∈ dedupRows t ei,
        getV (G r) pday = dtToDate (dateValOf parse t ei r) ∧
        getV (G r) pweek = weekStart (dateValOf parse t ei r) ∧
        getV (G r) pe = getV r ei := by
  have hein : ei < (strippedCols t).length := findCol_lt h
  have heiname : strLower ((strippedCols t).getD ei "") = "email" := by
    have := findCol_prop "" h
    simpa using this
  obtain ⟨gB, hVR, hgB, hBidx, tailB, htailB, hBcols⟩ := validRows_decomp t ei h
  have hddlen : ∀ rr ∈ dedupRows t ei, rr.length = (markerCR t ei).1.length := by
    intro rr hrr
    have hv := dedupRows_subset_valid t ei rr hrr
    rw [hVR] at hv
    obtain ⟨r, hr, rfl⟩ := List.mem_map.mp hv
    exact (hgB r (trimmedRows_mem_length t ei r (List.mem_of_mem_filter hr))).2
  have hein1 : ei < (markerCR t ei).1.length := by
    rw [hBcols, List.length_append]
    omega
  have hc1ei : (markerCR t ei).1.getD ei "" = (strippedCols t).getD ei "" := by
    rw [hBcols]
    exact getD_append_left _ _ _ _ hein
  -- date stage, uniform over the two branches
  have hDC : ∃ (gE : List Val → List Val) (tailE : List String),
      (dateCR parse t ei).1 = (markerCR t ei).1 ++ tailE ∧
      (∀ x ∈ tailE, x = "date") ∧
      (dateCR parse t ei).2.1 = (dedupRows t ei).map gE ∧
      (dateCR parse t ei).2.2 < (dateCR parse t ei).1.length ∧
      dateAliases.contains
        (strLower ((dateCR parse t ei).1.getD (dateCR parse t ei).2.2 "")) = true ∧
      ∀ r : List Val, r.length = (markerCR t ei).1.length →
        (gE r).length = (dateCR parse t ei).1.length ∧
        getV (gE r) (dateCR parse t ei).2.2 = dateValOf parse t ei r ∧
        ∀ j, j < (markerCR t ei).1.length → j ≠ (dateCR parse t ei).2.2 →
          getV (gE r) j = getV r j := by
    cases hD : findDateIdx (markerCR t ei).1 with
    | some di =>
      have hDCe : dateCR parse t ei =
          ((markerCR t ei).1,
            (dedupRows t ei).map (fun r => r.set di (toDatetime parse (getV r di))), di) := by
        simp [dateCR, hD]
      refine ⟨fun r => r.set di (toDatetime parse (getV r di)), [],
        by rw [hDCe]; simp, by simp, by rw [hDCe], by rw [hDCe]; exact findCol_lt hD,
        ?_, ?_⟩
      · rw [hDCe]
        dsimp only
        have := findCol_prop "" hD
        simpa using this
      · intro r hr
        rw [hDCe]
        dsimp only
        have hdil : di < r.length := by
          rw [hr]
          exact findCol_lt hD
        refine ⟨by simp [List.length_set, hr], ?_, ?_⟩
        · rw [getV_set_eq r di _ hdil]
          simp [dateValOf, hD]
        · intro j hj hne
          exact getV_set_ne r di j _ (Ne.symm hne)
    | none =>
      have hDCe : dateCR parse t ei =
          setColumn (markerCR t ei).1 (dedupRows t ei) "date" (fun _ => Val.na) := by
        simp [dateCR, hD]
      obtain ⟨gE, hErows, ⟨tailE, htailE, hEcols⟩, hEidx, hElt, hEname, hEcell⟩ :=
        setColumn_shape (markerCR t ei).1 (dedupRows t ei) "date" (fun _ => Val.na)
      rw [← hDCe] at hErows hEidx hElt hEname hEcell hEcols
      refine ⟨gE, tailE, hEcols, ?_, hErows, hElt, ?_, ?_⟩
      · rcases htailE with rfl | rfl
        · intro x hx
          exact absurd hx (by simp)
        · intro x hx
          simpa using hx
      · rw [hEname]
        decide
      · intro r hr
        refine ⟨(hEcell r hr).1, ?_, (hEcell r hr).2.2⟩
        rw [(hEcell r hr).2.1]
        simp [dateValOf, hD]
  obtain ⟨gE, tailE, hEcols, htailE, hErows, hElt, hEalias, hEcell⟩ := hDC
  have hein2 : ei < (dateCR parse t ei).1.length := by
    rw [hEcols, List.length_append]
    omega
  have hc2ei : (dateCR parse t ei).1.getD ei "" = (strippedCols t).getD ei "" := by
    rw [hEcols, getD_append_left _ _ _ _ hein1]
    exact hc1ei
  have hei_ne_di : ei ≠ (dateCR parse t ei).2.2 := by
    intro hc
    rw [← hc, hc2ei, heiname] at hEalias
    exact absurd hEalias (by decide)
  -- lead_day stage
  have hF : dayCR parse t ei = setColumn (dateCR parse t ei).1 (dateCR parse t ei).2.1
      "lead_day" (fun r => dtToDate (getV r (dateCR parse t ei).2.2)) := rfl
  obtain ⟨gF, hFrows, ⟨tailF, htailF, hFcols⟩, hFidx, hFlt, hFname, hFcell⟩ :=
    setColumn_shape (dateCR parse t ei).1 (dateCR parse t ei).2.1
      "lead_day" (fun r => dtToDate (getV r (dateCR parse t ei).2.2))
  rw [← hF] at hFrows hFidx hFlt hFname hFcell hFcols
  have hrows2len : ∀ r2 ∈ (dateCR parse t ei).2.1, r2.length = (dateCR parse t ei).1.length := by
    intro r2 hr2
    rw [hErows] at hr2
    obtain ⟨rr, hrr, rfl⟩ := List.mem_map.mp hr2
    exact (hEcell rr (hddlen rr hrr)).1
  have hein3 : ei < (dayCR parse t ei).1.length := by
    rw [hFcols, List.length_append]
    omega
  have hc3ei : (dayCR parse t ei).1.getD ei "" = (strippedCols t).getD ei "" := by
    rw [hFcols, getD_append_left _ _ _ _ hein2]
    exact hc2ei
  have hei_ne_p3 : ei ≠ (dayCR parse t ei).2.2 := by
    intro hc
    rw [← hc, hc3ei] at hFname
    rw [hFname] at heiname
    exact absurd heiname (by decide)
  have hdi2 : (dateCR parse t ei).2.2 < (dateCR parse t ei).1.length := hElt
  have hdi_ne_p3 : (dateCR parse t ei).2.2 ≠ (dayCR parse t ei).2.2 := by
    intro hc
    have hc3di : (dayCR parse t ei).1.getD (dateCR parse t ei).2.2 ""
        = (dateCR parse t ei).1.getD (dateCR parse t ei).2.2 "" := by
      rw [hFcols]
      exact getD_append_left _ _ _ _ hdi2
    rw [← hc, hc3di] at hFname
    rw [hFname] at hEalias
    exact absurd hEalias (by decide)
  -- lead_week stage
  have hG : weekCR parse t ei = setColumn (dayCR parse t ei).1 (dayCR parse t ei).2.1
      "lead_week" (fun r => weekStart (getV r (dateCR parse t ei).2.2)) := rfl
  obtain ⟨gG, hGrows, ⟨tailG, htailG, hGcols⟩, hGidx, hGlt, hGname, hGcell⟩ :=
    setColumn_shape (dayCR parse t ei).1 (dayCR parse t ei).2.1
      "lead_week" (fun r => weekStart (getV r (dateCR parse t ei).2.2))
  rw [← hG] at hGrows hGidx hGlt hGname hGcell hGcols
  have hrows3len : ∀ r3 ∈ (dayCR parse t ei).2.1, r3.length = (dayCR parse t ei).1.length := by
    intro r3 hr3
    rw [hFrows] at hr3
    obtain ⟨r2, hr2, rfl⟩ := List.mem_map.mp hr3
    exact (hFcell r2 (hrows2len r2 hr2)).1
  have hein4 : ei < (weekCR parse t ei).1.length := by
    rw [hGcols, List.length_append]
    omega
  have hc4ei : (weekCR parse t ei).1.getD ei "" = (strippedCols t).getD ei "" := by
    rw [hGcols, getD_append_left _ _ _ _ hein3]
    exact hc3ei
  have hei_ne_p4 : ei ≠ (weekCR parse t ei).2.2 := by
    intro hc
    rw [← hc, hc4ei] at hGname
    rw [hGname] at heiname
    exact absurd heiname (by decide)
  have hp3lt : (dayCR parse t ei).2.2 < (dayCR parse t ei).1.length := hFlt
  have hc4p3 : (weekCR parse t ei).1.getD (dayCR parse t ei).2.2 ""
      = (dayCR parse t ei).1.getD (dayCR parse t ei).2.2 "" := by
    rw [hGcols]
    exact getD_append_left _ _ _ _ hp3lt
  have hp3_ne_p4 : (dayCR parse t ei).2.2 ≠ (weekCR parse t ei).2.2 := by
    intro hc
    rw [← hc, hc4p3, hFname] at hGname
    exact absurd hGname (by decide)
  have hdi3 : (dateCR parse t ei).2.2 < (dayCR parse t ei).1.length := by
    rw [hFcols, List.length_append]
    omega
  -- marker column position in the final pre-drop header
  have hm4 : idxOfName "__valid_email" (weekCR parse t ei).1 = some (markerCR t ei).2.2 := by
    rw [hGcols, hFcols, hEcols]
    exact idxOfName_append _ (idxOfName_append _ (idxOfName_append _ hBidx))
  have hm4lt : (markerCR t ei).2.2 < (weekCR parse t ei).1.length := findCol_lt hm4
  have hm4name : (weekCR parse t ei).1.getD (markerCR t ei).2.2 "" = "__valid_email" :=
    idxOfName_getD hm4
  have hclean : cleanTable parse t ei =
      ⟨(weekCR parse t ei).1.eraseIdx (markerCR t ei).2.2,
        (weekCR parse t ei).2.1.map (fun r => r.eraseIdx (markerCR t ei).2.2)⟩ := by
    show (⟨(dropColumn (weekCR parse t ei).1 (weekCR parse t ei).2.1 "__valid_email").1,
      (dropColumn (weekCR parse t ei).1 (weekCR parse t ei).2.1 "__valid_email").2⟩ : Table) = _
    rw [dropColumn_eq hm4]
  have hei_ne_mi : ei ≠ (markerCR t ei).2.2 := by
    intro hc
    rw [← hc, hc4ei] at hm4name
    rw [hm4name] at heiname
    exact absurd heiname (by decide)
  have hp3_ne_mi : (dayCR parse t ei).2.2 ≠ (markerCR t ei).2.2 := by
    intro hc
    rw [← hc, hc4p3, hFname] at hm4name
    exact absurd hm4name (by decide)
  have hp4_ne_mi : (weekCR parse t ei).2.2 ≠ (markerCR t ei).2.2 := by
    intro hc
    rw [← hc, hGname] at hm4name
    exact absurd hm4name (by decide)
  have hgetmarker : ∀ x, (weekCR parse t ei).1[(markerCR t ei).2.2]? = some x →
      x = "__valid_email" := by
    intro x hx
    rw [List.getElem?_eq_getElem hm4lt] at hx
    injection hx with hx'
    have h2 : (weekCR parse t ei).1.getD (markerCR t ei).2.2 ""
        = (weekCR parse t ei).1[(markerCR t ei).2.2] := by
      rw [List.getD_eq_getElem?_getD, List.getElem?_eq_getElem hm4lt]
      rfl
    rw [← hx', ← h2]
    exact hm4name
  -- email position in the header
  have hem1 : findEmailIdx (markerCR t ei).1 = some ei := by
    rw [hBcols]
    exact findCol_append tailB h
  have hem4 : findEmailIdx (weekCR parse t ei).1 = some ei := by
    rw [hGcols, hFcols, hEcols]
    exact findCol_append _ (findCol_append _ (findCol_append _ hem1))
  have hpe : findEmailIdx ((weekCR parse t ei).1.eraseIdx (markerCR t ei).2.2) =
      some (if ei < (markerCR t ei).2.2 then ei else ei - 1) := by
    refine findCol_eraseIdx_some ?_ hem4
    intro x hx
    rw [hgetmarker x hx]
    decide
  have hpday : idxOfName "lead_day" ((weekCR parse t ei).1.eraseIdx (markerCR t ei).2.2) =
      some (if (dayCR parse t ei).2.2 < (markerCR t ei).2.2 then (dayCR parse t ei).2.2
        else (dayCR parse t ei).2.2 - 1) := by
    refine findCol_eraseIdx_some ?_ ?_
    · intro x hx
      rw [hgetmarker x hx]
      decide
    · rw [hGcols]
      exact idxOfName_append _ hFidx
  have hpweek : idxOfName "lead_week" ((weekCR parse t ei).1.eraseIdx (markerCR t ei).2.2) =
      some (if (weekCR parse t ei).2.2 < (markerCR t ei).2.2 then (weekCR parse t ei).2.2
        else (weekCR parse t ei).2.2 - 1) := by
    refine findCol_eraseIdx_some ?_ hGidx
    intro x hx
    rw [hgetmarker x hx]
    decide
  -- the shifted final column-read helper
  have hshiftcol : ∀ q, q ≠ (markerCR t ei).2.2 →
      ((weekCR parse t ei).1.eraseIdx (markerCR t ei).2.2).getD
        (if q < (markerCR t ei).2.2 then q else q - 1) ""
        = (weekCR parse t ei).1.getD q "" := by
    intro q hq
    rcases Nat.lt_or_ge q (markerCR t ei).2.2 with hlt | hge
    · rw [if_pos hlt]
      exact getD_eraseIdx_lt _ "" _ q hlt
    · have hgt : (markerCR t ei).2.2 < q := by omega
      rw [if_neg (by omega), getD_eraseIdx_ge _ "" _ (q - 1) (by omega)]
      congr 1
      omega
  have hshiftrow : ∀ (r4 : List Val) (q : Nat), q ≠ (markerCR t ei).2.2 →
      getV (r4.eraseIdx (markerCR t ei).2.2)
        (if q < (markerCR t ei).2.2 then q else q - 1) = getV r4 q := by
    intro r4 q hq
    rcases Nat.lt_or_ge q (markerCR t ei).2.2 with hlt | hge
    · rw [if_pos hlt]
      exact getV_eraseIdx_lt _ _ q hlt
    · have hgt : (markerCR t ei).2.2 < q := by omega
      rw [if_neg (by omega), getV_eraseIdx_ge _ _ (q - 1) (by omega)]
      congr 1
      omega
  refine ⟨(if ei < (markerCR t ei).2.2 then ei else ei - 1),
    (if (dayCR parse t ei).2.2 < (markerCR t ei).2.2 then (dayCR parse t ei).2.2
      else (dayCR parse t ei).2.2 - 1),
    (if (weekCR parse t ei).2.2 < (markerCR t ei).2.2 then (weekCR parse t ei).2.2
      else (weekCR parse t ei).2.2 - 1),
    fun rr => (gG (gF (gE rr))).eraseIdx (markerCR t ei).2.2,
    ?_, ?_, ?_, ?_, ?_, ?_, ?_⟩
  · rw [hclean]
    exact hpe
  · -- first exact-name occurrence of the email column name is the email column
    rw [hclean]
    have hpename : ((weekCR parse t ei).1.eraseIdx (markerCR t ei).2.2).getD
        (if ei < (markerCR t ei).2.2 then ei else ei - 1) ""
        = (strippedCols t).getD ei "" := by
      rw [hshiftcol ei hei_ne_mi]
      exact hc4ei
    have hpelt : (if ei < (markerCR t ei).2.2 then ei else ei - 1) <
        ((weekCR parse t ei).1.eraseIdx (markerCR t ei).2.2).length := findCol_lt hpe
    obtain ⟨q, hq, hqle⟩ := @findCol_exists_of_prop
      (fun c => c == ((weekCR parse t ei).1.eraseIdx (markerCR t ei).2.2).getD
        (if ei < (markerCR t ei).2.2 then ei else ei - 1) "")
      ((weekCR parse t ei).1.eraseIdx (markerCR t ei).2.2)
      (if ei < (markerCR t ei).2.2 then ei else ei - 1) hpelt (by simp)
    have hqname := idxOfName_getD hq
    have hqemail : (fun c => strLower c == "email")
        (((weekCR parse t ei).1.eraseIdx (markerCR t ei).2.2).getD q "") = true := by
      dsimp only
      rw [hqname, hpename, heiname]
      rfl
    have hle2 := findCol_le_of_prop hpe hqemail
    have hqeq : q = (if ei < (markerCR t ei).2.2 then ei else ei - 1) := by omega
    rw [hqeq] at hq
    exact hq
  · rw [hclean]
    show strLower (((weekCR parse t ei).1.eraseIdx (markerCR t ei).2.2).getD
      (if ei < (markerCR t ei).2.2 then ei else ei - 1) "") = "email"
    rw [hshiftcol ei hei_ne_mi, hc4ei]
    exact heiname
  · rw [hclean]
    exact hpday
  · rw [hclean]
    exact hpweek
  · rw [hclean]
    show (weekCR parse t ei).2.1.map (fun r => r.eraseIdx (markerCR t ei).2.2)
      = (dedupRows t ei).map (fun rr => (gG (gF (gE rr))).eraseIdx (markerCR t ei).2.2)
    rw [hGrows, hFrows, hErows, List.map_map, List.map_map, List.map_map]
    rfl
  · intro rr hrr
    have l1 : rr.length = (markerCR t ei).1.length := hddlen rr hrr
    have l2 : (gE rr).length = (dateCR parse t ei).1.length := (hEcell rr l1).1
    have l3 : (gF (gE rr)).length = (dayCR parse t ei).1.length := (hFcell _ l2).1
    have hv2di : getV (gE rr) (dateCR parse t ei).2.2 = dateValOf parse t ei rr :=
      (hEcell rr l1).2.1
    have hv2ei : getV (gE rr) ei = getV rr ei :=
      (hEcell rr l1).2.2 ei hein1 hei_ne_di
    have hv3p3 : getV (gF (gE rr)) (dayCR parse t ei).2.2
        = dtToDate (getV (gE rr) (dateCR parse t ei).2.2) := (hFcell _ l2).2.1
    have hv3di : getV (gF (gE rr)) (dateCR parse t ei).2.2
        = getV (gE rr) (dateCR parse t ei).2.2 :=
      (hFcell _ l2).2.2 _ hdi2 hdi_ne_p3
    have hv3ei : getV (gF (gE rr)) ei = getV (gE rr) ei :=
      (hFcell _ l2).2.2 ei hein2 hei_ne_p3
    have hv4p4 : getV (gG (gF (gE rr))) (weekCR parse t ei).2.2
        = weekStart (getV (gF (gE rr)) (dateCR parse t ei).2.2) := (hGcell _ l3).2.1
    have hv4p3 : getV (gG (gF (gE rr))) (dayCR parse t ei).2.2
        = getV (gF (gE rr)) (dayCR parse t ei).2.2 :=
      (hGcell _ l3).2.2 _ hp3lt hp3_ne_p4
    have hv4ei : getV (gG (gF (gE rr))) ei = getV (gF (gE rr)) ei :=
      (hGcell _ l3).2.2 ei hein3 hei_ne_p4
    refine ⟨?_, ?_, ?_⟩
    · rw [hshiftrow _ _ hp3_ne_mi, hv4p3, hv3p3, hv2di]
    · rw [hshiftrow _ _ hp4_ne_mi, hv4p4, hv3di, hv2di]
    · rw [hshiftrow _ _ hei_ne_mi, hv4ei, hv3ei, hv2ei]

/-! ## Grouped counting lemmas -/

theorem length_filter_cons {α : Type} (p : α → Bool) (a : α) (l : List α) :
    (List.filter p (a :: l)).length = (if p a then 1 else 0) + (List.filter p l).length := by
  rw [List.filter_cons]
  cases h : p a <;> simp [Nat.add_comm]

theorem sum_map_add {α : Type} (l : List α) (f g : α → Nat) :
    (l.map (fun x => f x + g x)).sum = (l.map f).sum + (l.map g).sum := by
  induction l with
  | nil => rfl
  | cons a l ih =>
    simp only [List.map_cons, List.sum_cons, ih]
    omega

theorem sum_indicator (v : Val) :
    ∀ ks : List Val, ks.Nodup →
      ((ks.map (fun kv => if v == kv then 1 else 0)).sum : Nat) = if v ∈ ks then 1 else 0 := by
  intro ks
  induction ks with
  | nil => intro _; simp
  | cons k ks ih =>
    intro hnd
    rw [List.nodup_cons] at hnd
    simp only [List.map_cons, List.sum_cons]
    by_cases hv : v = k
    · subst hv
      have hz : ((ks.map (fun kv => if v == kv then 1 else 0)).sum : Nat) = 0 := by
        rw [ih hnd.2, if_neg hnd.1]
      rw [hz]
      simp
    · have hbeq : (v == k) = false := by
        simp [hv]
      rw [hbeq, ih hnd.2]
      simp [hv]

theorem sum_group_lengths (f : List Val → Val) (ks : List Val) (hnd : ks.Nodup) :
    ∀ R : List (List Val), (∀ r ∈ R, (f r ∈ ks ↔ (f r).isNa = false)) →
      ((ks.map (fun kv => (R.filter (fun r => f r == kv)).length)).sum)
        = (R.filter (fun r => !(f r).isNa)).length := by
  intro R
  induction R with
  | nil => intro _; simp
  | cons r R ih =>
    intro hR
    have hstep : (ks.map (fun kv => (List.filter (fun r => f r == kv) (r :: R)).length))
        = ks.map (fun kv => (if f r == kv then 1 else 0)
            + (List.filter (fun r => f r == kv) R).length) := by
      apply List.map_congr_left
      intro kv _
      exact length_filter_cons _ r R
    rw [hstep, sum_map_add, sum_indicator (f r) ks hnd,
      ih (fun x hx => hR x (List.mem_cons_of_mem r hx))]
    rw [length_filter_cons]
    have hmem := hR r (List.mem_cons_self r R)
    by_cases hna : (f r).isNa = false
    · rw [if_pos (hmem.mpr hna)]
      simp [hna]
    · have : (f r).isNa = true := by
        cases hq : (f r).isNa
        · exact absurd hq hna
        · rfl
      rw [if_neg (fun hc => hna (hmem.mp hc))]
      simp [this]

theorem sortVals_perm (vs : List Val) : List.Perm (sortVals vs) vs :=
  List.perm_insertionSort _ vs

theorem groupCount_eq (t : Table) (keyCol emailCol : String) {ki : Nat}
    (hk : idxOfName keyCol t.cols = some ki) :
    groupCount t keyCol emailCol =
      (sortVals (dedupKeyed id ((t.rows.map (fun r => getV r ki)).filter
        (fun v => !v.isNa)))).map (fun kv =>
          (kv, (t.rows.filter (fun r => getV r ki == kv &&
            (match idxOfName emailCol t.cols with
             | some j => !(getV r j).isNa
             | none => false))).length)) := by
  simp [groupCount, hk]

theorem mem_groupCount_keys (t : Table) (keyCol emailCol : String) {ki : Nat}
    (hk : idxOfName keyCol t.cols = some ki) :
    ∀ p ∈ groupCount t keyCol emailCol,
      p.1.isNa = false ∧ p.1 ∈ t.rows.map (fun r => getV r ki) := by
  intro p hp
  rw [groupCount_eq t keyCol emailCol hk] at hp
  obtain ⟨kv, hkv, rfl⟩ := List.mem_map.mp hp
  have hkv2 := (sortVals_perm _).mem_iff.mp hkv
  have hkv3 : kv ∈ (t.rows.map (fun r => getV r ki)).filter (fun v => !v.isNa) :=
    (dedupKeyed_sublist id _).subset hkv2
  have h1 := List.of_mem_filter hkv3
  have h2 := List.mem_of_mem_filter hkv3
  constructor
  · cases hq : kv.isNa
    · rfl
    · rw [hq] at h1
      exact absurd h1 (by decide)
  · exact h2

theorem groupCount_sum (t : Table) (keyCol emailCol : String) {ki ej : Nat}
    (hk : idxOfName keyCol t.cols = some ki)
    (he : idxOfName emailCol t.cols = some ej)
    (hE : ∀ r ∈ t.rows, (getV r ej).isNa = false) :
    ((groupCount t keyCol emailCol).map Prod.snd).sum
      = (t.rows.filter (fun r => !(getV r ki).isNa)).length := by
  rw [groupCount_eq t keyCol emailCol hk]
  rw [List.map_map]
  have hpred : ∀ kv : Val,
      t.rows.filter (fun r => getV r ki == kv &&
        (match idxOfName emailCol t.cols with
         | some j => !(getV r j).isNa
         | none => false))
      = t.rows.filter (fun r => getV r ki == kv) := by
    intro kv
    apply List.filter_congr
    intro r hr
    rw [he]
    show (getV r ki == kv && !(getV r ej).isNa) = (getV r ki == kv)
    rw [hE r hr]
    simp
  have hmapeq : ((sortVals (dedupKeyed id ((t.rows.map (fun r => getV r ki)).filter
      (fun v => !v.isNa)))).map (Prod.snd ∘ (fun kv =>
        (kv, (t.rows.filter (fun r => getV r ki == kv &&
          (match idxOfName emailCol t.cols with
           | some j => !(getV r j).isNa
           | none => false))).length))))
      = (sortVals (dedupKeyed id ((t.rows.map (fun r => getV r ki)).filter
          (fun v => !v.isNa)))).map (fun kv =>
            (t.rows.filter (fun r => getV r ki == kv)).length) := by
    apply List.map_congr_left
    intro kv _
    show (t.rows.filter _).length = _
    rw [hpred kv]
  rw [hmapeq]
  set keys := (t.rows.map (fun r => getV r ki)).filter (fun v => !v.isNa) with hkeys
  have hnd : (sortVals (dedupKeyed id keys)).Nodup := by
    refine (sortVals_perm _).nodup_iff.mpr ?_
    have := nodup_keys_dedupKeyed id keys
    rwa [List.map_id] at this
  have hmemiff : ∀ v : Val, v ∈ sortVals (dedupKeyed id keys) ↔ v ∈ keys := by
    intro v
    rw [(sortVals_perm _).mem_iff]
    constructor
    · intro hv
      exact (dedupKeyed_sublist id keys).subset hv
    · intro hv
      obtain ⟨y, hy, hyv⟩ := key_mem_dedupKeyed id keys v hv
      rw [show (id y : Val) = y from rfl] at hyv
      rw [← show (id v : Val) = v from rfl, ← hyv]
      exact hy
  refine sum_group_lengths (fun r => getV r ki) _ hnd t.rows ?_
  intro r hr
  rw [hmemiff, hkeys, List.mem_filter]
  constructor
  · intro hv
    have := hv.2
    cases hq : (getV r ki).isNa
    · rfl
    · rw [hq] at this
      exact absurd this (by decide)
  · intro hv
    exact ⟨List.mem_map_of_mem _ hr, by rw [hv]; rfl⟩

theorem groupCount_empty_of_all_na (t : Table) (keyCol emailCol : String) {ki : Nat}
    (hk : idxOfName keyCol t.cols = some ki)
    (hall : ∀ r ∈ t.rows, (getV r ki).isNa = true) :
    groupCount t keyCol emailCol = [] := by
  rw [groupCount_eq t keyCol emailCol hk]
  have hkeys : (t.rows.map (fun r => getV r ki)).filter (fun v => !v.isNa) = [] := by
    rw [List.filter_eq_nil_iff]
    intro v hv
    obtain ⟨r, hr, rfl⟩ := List.mem_map.mp hv
    rw [hall r hr]
    decide
  rw [hkeys]
  rfl

theorem nunique_eq_length (t : Table) (emailCol : String) {ej : Nat}
    (he : idxOfName emailCol t.cols = some ej)
    (hE : ∀ r ∈ t.rows, (getV r ej).isNa = false)
    (hnd : (t.rows.map (fun r => getV r ej)).Nodup) :
    nunique t emailCol = t.rows.length := by
  simp only [nunique, he]
  have hfil : (t.rows.map (fun r => getV r ej)).filter (fun v => !v.isNa)
      = t.rows.map (fun r => getV r ej) := by
    rw [List.filter_eq_self]
    intro v hv
    obtain ⟨r, hr, rfl⟩ := List.mem_map.mp hv
    rw [hE r hr]
    rfl
  rw [hfil]
  have hid : (t.rows.map (fun r => getV r ej)).map id = t.rows.map (fun r => getV r ej) :=
    List.map_id _
  rw [dedupKeyed_eq_self id _ (by rwa [hid]), List.length_map]

/-! ## The email matcher agrees with the spec predicate -/

theorem takeWhile_append_not {p : Char → Bool} :
    ∀ (l : List Char) (x : Char) (r : List Char),
      (∀ c ∈ l, p c = true) → p x = false →
      (l ++ x :: r).takeWhile p = l ∧ (l ++ x :: r).dropWhile p = x :: r := by
  intro l
  induction l with
  | nil =>
    intro x r _ hx
    constructor
    · simp [List.takeWhile_cons, hx]
    · simp [List.dropWhile_cons, hx]
  | cons a l ih =>
    intro x r hall hx
    have ha : p a = true := hall a (List.mem_cons_self _ _)
    have hrec := ih x r (fun c hc => hall c (List.mem_cons_of_mem _ hc)) hx
    constructor
    · simp only [List.cons_append, List.takeWhile_cons, ha, if_true]
      rw [hrec.1]
    · simp only [List.cons_append, List.dropWhile_cons, ha, if_true]
      exact hrec.2

theorem matchEmailChars_iff (cs : List Char) :
    matchEmailChars cs = true ↔ specEmailOk cs := by
  constructor
  · intro h
    unfold matchEmailChars at h
    cases hdrop : cs.dropWhile isLocalChar with
    | nil => rw [hdrop] at h; exact absurd h (by simp)
    | cons c r =>
      rw [hdrop] at h
      simp only at h
      by_cases hc : c = '@'
      · subst hc
        rw [if_pos rfl] at h
        cases hdrop2 : r.dropWhile isDomainChar with
        | nil => rw [hdrop2] at h; exact absurd h (by simp)
        | cons c2 tl =>
          rw [hdrop2] at h
          simp only at h
          by_cases hc2 : c2 = '.'
          · subst hc2
            rw [if_pos rfl] at h
            simp only [Bool.and_eq_true, Bool.not_eq_true'] at h
            obtain ⟨⟨⟨hl, hd⟩, ht⟩, hall⟩ := h
            refine ⟨cs.takeWhile isLocalChar, r.takeWhile isDomainChar, tl, ?_, ?_, ?_, ?_, ?_, ?_, ?_⟩
            · conv_lhs => rw [← List.takeWhile_append_dropWhile isLocalChar cs]
              rw [hdrop]
              congr 1
              conv_lhs => rw [← List.takeWhile_append_dropWhile isDomainChar r]
              rw [hdrop2]
            · intro hnil
              rw [hnil] at hl
              exact absurd hl (by simp)
            · intro x hx
              exact List.mem_takeWhile_imp hx
            · intro hnil
              rw [hnil] at hd
              exact absurd hd (by simp)
            · intro x hx
              exact List.mem_takeWhile_imp hx
            · intro hnil
              rw [hnil] at ht
              exact absurd ht (by simp)
            · exact fun x hx => List.all_eq_true.mp hall x hx
          · rw [if_neg hc2] at h
            exact absurd h (by simp)
      · rw [if_neg hc] at h
        exact absurd h (by simp)
  · rintro ⟨l, d, tl, rfl, hl, hlall, hd, hdall, htl, htlall⟩
    have hat : isLocalChar '@' = false := by decide
    have hdot : isDomainChar '.' = false := by decide
    have h1 := takeWhile_append_not l '@' (d ++ '.' :: tl) hlall hat
    have h2 := takeWhile_append_not d '.' tl hdall hdot
    unfold matchEmailChars
    rw [h1.2]
    simp only [if_pos rfl]
    rw [h2.2]
    simp only [if_pos rfl]
    rw [h1.1, h2.1]
    have hbl : l.isEmpty = false := by
      cases l with
      | nil => exact absurd rfl hl
      | cons a t => rfl
    have hbd : d.isEmpty = false := by
      cases d with
      | nil => exact absurd rfl hd
      | cons a t => rfl
    have hbt : tl.isEmpty = false := by
      cases tl with
      | nil => exact absurd rfl htl
      | cons a t => rfl
    rw [hbl, hbd, hbt]
    simp only [Bool.not_false, Bool.true_and]
    exact List.all_eq_true.mpr htlall

/-! ## Pipeline-level helpers -/

theorem clean_leads_ok (parse : String → Option Nat) (t : Table) (ei : Nat)
    (h : findEmailIdx (strippedCols t) = some ei) :
    clean_leads parse t = .ok (cleanTable parse t ei, invalidCount t ei, removedDups t ei) := by
  simp [clean_leads, h]

theorem clean_leads_ok_elim {parse : String → Option Nat} {t : Table}
    {out : Table} {ic rd : Nat} (h : clean_leads parse t = .ok (out, ic, rd)) :
    ∃ ei, findEmailIdx (strippedCols t) = some ei ∧
      out = cleanTable parse t ei ∧ ic = invalidCount t ei ∧ rd = removedDups t ei := by
  cases hf : findEmailIdx (strippedCols t) with
  | none => simp [clean_leads, hf] at h
  | some ei =>
    rw [clean_leads_ok parse t ei hf] at h
    injection h with h'
    injection h' with h1 h2
    injection h2 with h2 h3
    exact ⟨ei, rfl, h1.symm, h2.symm, h3.symm⟩

theorem runPipeline_eq (parse : String → Option Nat) (t : Table) (ei : Nat)
    (h : findEmailIdx (strippedCols t) = some ei) :
    runPipeline parse t = .ok (cleanTable parse t ei, invalidCount t ei, removedDups t ei,
      generate_report (cleanTable parse t ei)
        ((mainEmailCol (cleanTable parse t ei)).getD "")) := by
  rw [runPipeline, clean_leads_ok parse t ei h]

theorem runPipeline_ok_elim {parse : String → Option Nat} {t : Table}
    {out : Table} {ic rd : Nat} {rep : Report}
    (h : runPipeline parse t = .ok (out, ic, rd, rep)) :
    ∃ ei, findEmailIdx (strippedCols t) = some ei ∧
      out = cleanTable parse t ei ∧ ic = invalidCount t ei ∧ rd = removedDups t ei ∧
      rep = generate_report (cleanTable parse t ei)
        ((mainEmailCol (cleanTable parse t ei)).getD "") := by
  cases hf : findEmailIdx (strippedCols t) with
  | none =>
    rw [runPipeline] at h
    simp [clean_leads, hf] at h
  | some ei =>
    rw [runPipeline_eq parse t ei hf] at h
    injection h with h'
    injection h' with h1 h2
    injection h2 with h2 h3
    injection h3 with h3 h4
    exact ⟨ei, rfl, h1.symm, h2.symm, h3.symm, h4.symm⟩

theorem findDateIdx_markerCR (t : Table) (ei : Nat) :
    findDateIdx (markerCR t ei).1 = findDateIdx (strippedCols t) := by
  cases hf : idxOfName "__valid_email" (strippedCols t) with
  | some i =>
    show findDateIdx (setColumn (strippedCols t) (trimmedRows t ei) "__valid_email"
      (fun r => Val.vbool (valid_email (getV r ei)))).1 = _
    simp [setColumn, hf]
  | none =>
    show findDateIdx (setColumn (strippedCols t) (trimmedRows t ei) "__valid_email"
      (fun r => Val.vbool (valid_email (getV r ei)))).1 = _
    have hcols : (setColumn (strippedCols t) (trimmedRows t ei) "__valid_email"
        (fun r => Val.vbool (valid_email (getV r ei)))).1
        = strippedCols t ++ ["__valid_email"] := by
      simp [setColumn, hf]
    rw [hcols]
    exact findCol_append_singleton _ (by decide)

theorem cleanTable_email_col (parse : String → Option Nat) (t : Table) (ei : Nat)
    (h : findEmailIdx (strippedCols t) = some ei) :
    ∃ pe, findEmailIdx (cleanTable parse t ei).cols = some pe ∧
      (mainEmailCol (cleanTable parse t ei)).getD ""
        = (cleanTable parse t ei).cols.getD pe "" ∧
      idxOfName ((cleanTable parse t ei).cols.getD pe "") (cleanTable parse t ei).cols
        = some pe ∧
      (∀ r ∈ (cleanTable parse t ei).rows, (getV r pe).isNa = false) ∧
      ((cleanTable parse t ei).rows.map (fun r => getV r pe)).Nodup ∧
      (cleanTable parse t ei).rows.length = (dedupRows t ei).length ∧
      (cleanTable parse t ei).rows.map (fun r => getV r pe)
        = (dedupRows t ei).map (fun r => getV r ei) := by
  obtain ⟨pe, pday, pweek, G, hpe, hpename, _, _, _, hrows, hcells⟩ :=
    cleanTable_shape parse t ei h
  have hmain : (mainEmailCol (cleanTable parse t ei)).getD ""
      = (cleanTable parse t ei).cols.getD pe "" := by
    rw [mainEmailCol, hpe]
    rfl
  have hemails : (cleanTable parse t ei).rows.map (fun r => getV r pe)
      = (dedupRows t ei).map (fun r => getV r ei) := by
    rw [hrows, List.map_map]
    apply List.map_congr_left
    intro rr hrr
    exact (hcells rr hrr).2.2
  refine ⟨pe, hpe, hmain, hpename, ?_, ?_, by rw [hrows, List.length_map], hemails⟩
  · intro r hr
    rw [hrows] at hr
    obtain ⟨rr, hrr, rfl⟩ := List.mem_map.mp hr
    rw [(hcells rr hrr).2.2]
    obtain ⟨s, hs, -, -⟩ := validRows_mem_email t ei h rr (dedupRows_subset_valid t ei rr hrr)
    rw [hs]
    rfl
  · rw [hemails]
    exact dedupRows_keys_nodup t ei

/-! ## Claim theorems -/

/-- Claim C6: for every input table accepted by schema resolution,
`invalid_count + (number of valid-email rows) = total input rows` and
`removed_dups + (number of Clean Records) = number of valid-email rows`. -/
theorem count_conservation (parse : String → Option Nat) (t : Table)
    (out : Table) (ic rd : Nat) (h : clean_leads parse t = .ok (out, ic, rd)) :
    ∃ ei, findEmailIdx (strippedCols t) = some ei ∧
      ic + (validRows t ei).length = t.rows.length ∧
      rd + out.rows.length = (validRows t ei).length := by
  obtain ⟨ei, hf, rfl, rfl, rfl⟩ := clean_leads_ok_elim h
  obtain ⟨pe, -, -, -, -, -, hlen, -⟩ := cleanTable_email_col parse t ei hf
  have h1 := validRows_length_le t ei
  have h2 := dedupRows_length_le t ei
  refine ⟨ei, hf, ?_, ?_⟩
  · rw [invalidCount]
    omega
  · rw [removedDups, hlen]
    omega

/-- Claim C5: in every Clean Record, `lead_day` and `lead_week` are both
absent or both present; when present, `lead_week` is the Monday starting
the ISO week of `lead_day` (a multiple of 7 in the day-0-is-Monday
encoding) and `lead_day - lead_week` is between 0 and 6. -/
theorem lead_week_monday_consistent (parse : String → Option Nat) (t : Table)
    (out : Table) (ic rd : Nat) (h : clean_leads parse t = .ok (out, ic, rd)) :
    ∀ r ∈ out.rows,
      (getByName out r "lead_day" = Val.na ∧ getByName out r "lead_week" = Val.na) ∨
      ∃ d : Nat, getByName out r "lead_day" = Val.vdate d ∧
        getByName out r "lead_week" = Val.vdate (mondayOf d) ∧
        mondayOf d % 7 = 0 ∧ mondayOf d ≤ d ∧ d - mondayOf d ≤ 6 := by
  obtain ⟨ei, hf, rfl, -, -⟩ := clean_leads_ok_elim h
  obtain ⟨pe, pday, pweek, G, -, -, -, hpday, hpweek, hrows, hcells⟩ :=
    cleanTable_shape parse t ei hf
  intro r hr
  rw [hrows] at hr
  obtain ⟨rr, hrr, rfl⟩ := List.mem_map.mp hr
  obtain ⟨hday, hweek, -⟩ := hcells rr hrr
  have hbd : getByName (cleanTable parse t ei) (G rr) "lead_day" = getV (G rr) pday := by
    rw [getByName, hpday]
  have hbw : getByName (cleanTable parse t ei) (G rr) "lead_week" = getV (G rr) pweek := by
    rw [getByName, hpweek]
  rw [hbd, hbw, hday, hweek]
  cases hdv : dateValOf parse t ei rr with
  | vdate d =>
    right
    refine ⟨d, rfl, rfl, ?_, ?_, ?_⟩ <;> · rw [mondayOf]; omega
  | vstr s => left; exact ⟨rfl, rfl⟩
  | vbool b => left; exact ⟨rfl, rfl⟩
  | na => left; exact ⟨rfl, rfl⟩

/-- Claim C3: deduplication is stable and first-wins: the output is a
sublist of the input (rows unchanged, in order), keys are pairwise
distinct, every input key survives, and a row is kept iff it is the
first row bearing its key. -/
theorem dedup_first_wins (ei : Nat) (l : List (List Val)) :
    List.Sublist (dedupKeyed (fun r => getV r ei) l) l ∧
    ((dedupKeyed (fun r => getV r ei) l).map (fun r => getV r ei)).Nodup ∧
    (∀ x ∈ l, ∃ y ∈ dedupKeyed (fun r => getV r ei) l, getV y ei = getV x ei) ∧
    (∀ y, y ∈ dedupKeyed (fun r => getV r ei) l ↔
      ∃ l₁ l₂, l = l₁ ++ y :: l₂ ∧ ∀ z ∈ l₁, getV z ei ≠ getV y ei) ∧
    (∀ t : Table, dedupRows t ei = dedupKeyed (fun r => getV r ei) (validRows t ei)) :=
  ⟨dedupKeyed_sublist _ l, nodup_keys_dedupKeyed _ l,
    fun x hx => key_mem_dedupKeyed _ l x hx, fun y => mem_dedupKeyed _ l y,
    fun _ => rfl⟩

/-- Claim C2: a cell is classified valid iff its email string, after
trimming, nonempty-matches `local@domain.tld` over the spec's character
classes, anchored at both ends; missing or empty email is invalid, and
the four boundary examples behave as stated. -/
theorem valid_email_matches_spec :
    (∀ s : String, valid_email (Val.vstr s) = true ↔ specEmailOk (pyStrip s).data) ∧
    valid_email Val.na = false ∧
    valid_email (Val.vstr "") = false ∧
    valid_email (Val.vstr "a@b.co") = true ∧
    valid_email (Val.vstr "a@b") = false ∧
    valid_email (Val.vstr "@b.co") = false ∧
    valid_email (Val.vstr " a@b.co ") = true := by
  refine ⟨?_, rfl, by decide, by decide, by decide, by decide, by decide⟩
  intro s
  show matchEmailChars (pyStrip s).data = true ↔ specEmailOk (pyStrip s).data
  exact matchEmailChars_iff _

/-- Claim C7: the two summary scalars agree: the total Clean Record count
equals the number of distinct Canonical Emails among Clean Records. -/
theorem summary_total_eq_unique (parse : String → Option Nat) (t : Table)
    (out : Table) (ic rd : Nat) (rep : Report)
    (h : runPipeline parse t = .ok (out, ic, rd, rep)) :
    rep.totalLeads = rep.uniqueCustomers ∧ rep.totalLeads = out.rows.length := by
  obtain ⟨ei, hf, rfl, -, -, rfl⟩ := runPipeline_ok_elim h
  obtain ⟨pe, -, hmain, hpename, hnonNa, hnd, -, -⟩ := cleanTable_email_col parse t ei hf
  constructor
  · show (cleanTable parse t ei).rows.length = nunique (cleanTable parse t ei) _
    rw [hmain]
    exact (nunique_eq_length (cleanTable parse t ei) _ hpename hnonNa hnd).symm
  · rfl

/-- Claim C8: the dedup and grouping key is the trimmed email compared
case-sensitively: the Clean Records' email values are pairwise distinct
strings, and a string appears among them iff it is the trimmed email of
some input row that passes validation — with no lowercasing or other
normalization applied. -/
theorem dedup_key_case_sensitive (parse : String → Option Nat) (t : Table)
    (out : Table) (ic rd : Nat) (ei : Nat)
    (hf : findEmailIdx (strippedCols t) = some ei)
    (h : clean_leads parse t = .ok (out, ic, rd)) :
    ∃ pe, findEmailIdx out.cols = some pe ∧
      (out.rows.map (fun r => getV r pe)).Nodup ∧
      ∀ s : String, Val.vstr s ∈ out.rows.map (fun r => getV r pe) ↔
        ∃ r₀ ∈ t.rows, rawEmailTrim t ei r₀ = s ∧
          valid_email (Val.vstr (rawEmailTrim t ei r₀)) = true := by
  obtain ⟨ei', hf', rfl, -, -⟩ := clean_leads_ok_elim h
  have heq : ei' = ei := by
    rw [hf] at hf'
    injection hf' with he
    exact he.symm
  subst heq
  obtain ⟨pe, hpe, -, -, -, hnd, -, hemails⟩ := cleanTable_email_col parse t ei' hf
  refine ⟨pe, hpe, hnd, ?_⟩
  intro s
  rw [hemails]
  constructor
  · intro hs
    obtain ⟨rr, hrr, hcell⟩ := List.mem_map.mp hs
    have hvv : Val.vstr s ∈ (validRows t ei').map (fun r => getV r ei') := by
      rw [← hcell]
      exact List.mem_map_of_mem _ (dedupRows_subset_valid t ei' rr hrr)
    rw [validRows_emails_eq t ei' hf] at hvv
    obtain ⟨r₀, hr₀, hcell₀⟩ := List.mem_map.mp hvv
    have hval : valid_email (Val.vstr (rawEmailTrim t ei' r₀)) = true := by
      have := List.of_mem_filter hr₀
      exact this
    refine ⟨r₀, List.mem_of_mem_filter hr₀, ?_, hval⟩
    injection hcell₀
  · rintro ⟨r₀, hr₀, rfl, hval⟩
    have hvv : Val.vstr (rawEmailTrim t ei' r₀)
        ∈ (validRows t ei').map (fun r => getV r ei') := by
      rw [validRows_emails_eq t ei' hf]
      refine List.mem_map_of_mem _ (List.mem_filter.mpr ⟨hr₀, ?_⟩)
      exact hval
    obtain ⟨rr, hrr, hcell⟩ := List.mem_map.mp hvv
    obtain ⟨y, hy, hky⟩ := key_mem_dedupKeyed (fun r => getV r ei') (validRows t ei') rr hrr
    rw [← hcell, ← hky]
    exact List.mem_map_of_mem _ hy

/-- Claim C1 (counterexample): for the one-row input with no date-like
column, the Daily table is empty (the absent sentinel never appears as a
group key) even though there is one Clean Record, so the sum of `count`
over Daily rows differs from the total Clean Record count. -/
theorem report_absent_bucket_cex :
    runPipeline (fun _ => none) ⟨["email"], [[Val.vstr "a@b.co"]]⟩ =
      .ok (⟨["email", "date", "lead_day", "lead_week"],
            [[Val.vstr "a@b.co", Val.na, Val.na, Val.na]]⟩, 0, 0,
           ⟨[], [], 1, 1⟩) ∧
    (([] : List (Val × Nat)).map Prod.snd).sum ≠ 1 ∧
    ([] : List (Val × Nat)).length ≠ 1 :=
  ⟨by rfl, by decide, by decide⟩

/-- Claim C1 (amended): undated Clean Records are excluded from the Daily
and Weekly count tables; the sum of `count` over each table equals the
number of Clean Records with a present date bucket; no table row is keyed
by the absent sentinel; and an input with no date-like column yields
empty Daily and Weekly tables. -/
theorem report_counts_exclude_absent (parse : String → Option Nat) (t : Table)
    (out : Table) (ic rd : Nat) (rep : Report)
    (h : runPipeline parse t = .ok (out, ic, rd, rep)) :
    ((rep.daily.map Prod.snd).sum
        = (out.rows.filter (fun r => !(getByName out r "lead_day").isNa)).length) ∧
    ((rep.weekly.map Prod.snd).sum
        = (out.rows.filter (fun r => !(getByName out r "lead_week").isNa)).length) ∧
    (∀ p ∈ rep.daily, p.1 ≠ Val.na) ∧
    (∀ p ∈ rep.weekly, p.1 ≠ Val.na) ∧
    (findDateIdx (strippedCols t) = none → rep.daily = [] ∧ rep.weekly = []) := by
  obtain ⟨ei, hf, rfl, -, -, rfl⟩ := runPipeline_ok_elim h
  obtain ⟨pe, hpe, hmain, hpename, hnonNa, -, -, -⟩ := cleanTable_email_col parse t ei hf
  obtain ⟨pe', pday, pweek, G, hpe', -, -, hpday, hpweek, hrows, hcells⟩ :=
    cleanTable_shape parse t ei hf
  have hpe_eq : pe' = pe := by
    rw [hpe] at hpe'
    injection hpe' with he
    exact he.symm
  subst hpe_eq
  have hdaily : (generate_report (cleanTable parse t ei)
      ((mainEmailCol (cleanTable parse t ei)).getD "")).daily
      = groupCount (cleanTable parse t ei) "lead_day"
          ((mainEmailCol (cleanTable parse t ei)).getD "") := by
    simp [generate_report, hpday]
  have hweekly : (generate_report (cleanTable parse t ei)
      ((mainEmailCol (cleanTable parse t ei)).getD "")).weekly
      = groupCount (cleanTable parse t ei) "lead_week"
          ((mainEmailCol (cleanTable parse t ei)).getD "") := by
    simp [generate_report, hpweek]
  have hsum_day := groupCount_sum (cleanTable parse t ei) "lead_day"
    ((mainEmailCol (cleanTable parse t ei)).getD "") hpday (by rwa [hmain]) hnonNa
  have hsum_week := groupCount_sum (cleanTable parse t ei) "lead_week"
    ((mainEmailCol (cleanTable parse t ei)).getD "") hpweek (by rwa [hmain]) hnonNa
  have hfil_day : (cleanTable parse t ei).rows.filter (fun r => !(getV r pday).isNa)
      = (cleanTable parse t ei).rows.filter
          (fun r => !(getByName (cleanTable parse t ei) r "lead_day").isNa) := by
    apply List.filter_congr
    intro r _
    rw [getByName, hpday]
  have hfil_week : (cleanTable parse t ei).rows.filter (fun r => !(getV r pweek).isNa)
      = (cleanTable parse t ei).rows.filter
          (fun r => !(getByName (cleanTable parse t ei) r "lead_week").isNa) := by
    apply List.filter_congr
    intro r _
    rw [getByName, hpweek]
  refine ⟨?_, ?_, ?_, ?_, ?_⟩
  · rw [hdaily, hsum_day, hfil_day]
  · rw [hweekly, hsum_week, hfil_week]
  · intro p hp
    rw [hdaily] at hp
    have := (mem_groupCount_keys _ _ _ hpday p hp).1
    intro hc
    rw [hc] at this
    exact absurd this (by decide)
  · intro p hp
    rw [hweekly] at hp
    have := (mem_groupCount_keys _ _ _ hpweek p hp).1
    intro hc
    rw [hc] at this
    exact absurd this (by decide)
  · intro hnone
    have hnone1 : findDateIdx (markerCR t ei).1 = none := by
      rw [findDateIdx_markerCR]
      exact hnone
    have hallna_day : ∀ r ∈ (cleanTable parse t ei).rows, (getV r pday).isNa = true := by
      intro r hr
      rw [hrows] at hr
      obtain ⟨rr, hrr, rfl⟩ := List.mem_map.mp hr
      rw [(hcells rr hrr).1]
      have hna : dateValOf parse t ei rr = Val.na := by
        simp [dateValOf, hnone1]
      rw [hna]
      decide
    have hallna_week : ∀ r ∈ (cleanTable parse t ei).rows, (getV r pweek).isNa = true := by
      intro r hr
      rw [hrows] at hr
      obtain ⟨rr, hrr, rfl⟩ := List.mem_map.mp hr
      rw [(hcells rr hrr).2.1]
      have hna : dateValOf parse t ei rr = Val.na := by
        simp [dateValOf, hnone1]
      rw [hna]
      decide
    constructor
    · rw [hdaily]
      exact groupCount_empty_of_all_na _ _ _ hpday hallna_day
    · rw [hweekly]
      exact groupCount_empty_of_all_na _ _ _ hpweek hallna_week

/-- Witness for the C6 theorem at a concrete three-row input
(one invalid email, one duplicate). -/
theorem count_conservation_witness :
    ∃ ei, findEmailIdx (strippedCols ⟨["email"],
        [[Val.vstr "a@b.co"], [Val.vstr "bad"], [Val.vstr "a@b.co"]]⟩) = some ei ∧
      1 + (validRows ⟨["email"],
        [[Val.vstr "a@b.co"], [Val.vstr "bad"], [Val.vstr "a@b.co"]]⟩ ei).length
        = (⟨["email"], [[Val.vstr "a@b.co"], [Val.vstr "bad"], [Val.vstr "a@b.co"]]⟩ :
            Table).rows.length ∧
      1 + (⟨["email", "date", "lead_day", "lead_week"],
        [[Val.vstr "a@b.co", Val.na, Val.na, Val.na]]⟩ : Table).rows.length
        = (validRows ⟨["email"],
            [[Val.vstr "a@b.co"], [Val.vstr "bad"], [Val.vstr "a@b.co"]]⟩ ei).length :=
  count_conservation (fun _ => none)
    ⟨["email"], [[Val.vstr "a@b.co"], [Val.vstr "bad"], [Val.vstr "a@b.co"]]⟩
    ⟨["email", "date", "lead_day", "lead_week"],
      [[Val.vstr "a@b.co", Val.na, Val.na, Val.na]]⟩ 1 1 (by rfl)

/-- Witness for the C5 theorem at a one-row input whose date parses to
day 9 (a Wednesday in the day-0-is-Monday encoding, so its week starts
at day 7). -/
theorem lead_week_monday_consistent_witness :
    (getByName ⟨["email", "date", "lead_day", "lead_week"],
        [[Val.vstr "a@b.co", Val.vdate 2, Val.vdate 2, Val.vdate 0]]⟩
        [Val.vstr "a@b.co", Val.vdate 2, Val.vdate 2, Val.vdate 0] "lead_day" = Val.na ∧
      getByName ⟨["email", "date", "lead_day", "lead_week"],
        [[Val.vstr "a@b.co", Val.vdate 2, Val.vdate 2, Val.vdate 0]]⟩
        [Val.vstr "a@b.co", Val.vdate 2, Val.vdate 2, Val.vdate 0] "lead_week" = Val.na) ∨
    ∃ d : Nat, getByName ⟨["email", "date", "lead_day", "lead_week"],
        [[Val.vstr "a@b.co", Val.vdate 2, Val.vdate 2, Val.vdate 0]]⟩
        [Val.vstr "a@b.co", Val.vdate 2, Val.vdate 2, Val.vdate 0] "lead_day"
          = Val.vdate d ∧
      getByName ⟨["email", "date", "lead_day", "lead_week"],
        [[Val.vstr "a@b.co", Val.vdate 2, Val.vdate 2, Val.vdate 0]]⟩
        [Val.vstr "a@b.co", Val.vdate 2, Val.vdate 2, Val.vdate 0] "lead_week"
          = Val.vdate (mondayOf d) ∧
      mondayOf d % 7 = 0 ∧ mondayOf d ≤ d ∧ d - mondayOf d ≤ 6 :=
  lead_week_monday_consistent (fun s => some s.length)
    ⟨["email", "date"], [[Val.vstr "a@b.co", Val.vstr "d9"]]⟩
    ⟨["email", "date", "lead_day", "lead_week"],
      [[Val.vstr "a@b.co", Val.vdate 2, Val.vdate 2, Val.vdate 0]]⟩ 0 0 (by rfl)
    [Val.vstr "a@b.co", Val.vdate 2, Val.vdate 2, Val.vdate 0] (by decide)

/-- Witness for the C3 theorem: stability on a concrete list with a
repeated key. -/
theorem dedup_first_wins_witness :
    List.Sublist (dedupKeyed (fun r => getV r 0)
      [[Val.vstr "a"], [Val.vstr "a"], [Val.vstr "b"]])
      [[Val.vstr "a"], [Val.vstr "a"], [Val.vstr "b"]] :=
  (dedup_first_wins 0 [[Val.vstr "a"], [Val.vstr "a"], [Val.vstr "b"]]).1

/-- Witness for the C2 theorem: the iff at a multi-label address, and
the concrete boundary examples. -/
theorem valid_email_matches_spec_witness :
    (valid_email (Val.vstr "user.name+tag@sub-domain.co.uk") = true ↔
      specEmailOk (pyStrip "user.name+tag@sub-domain.co.uk").data) ∧
    valid_email (Val.vstr "a@b.co") = true :=
  ⟨valid_email_matches_spec.1 "user.name+tag@sub-domain.co.uk",
    valid_email_matches_spec.2.2.2.1⟩

/-- Witness for the C7 theorem at a two-row input. -/
theorem summary_total_eq_unique_witness :
    (⟨[], [], 2, 2⟩ : Report).totalLeads = (⟨[], [], 2, 2⟩ : Report).uniqueCustomers :=
  (summary_total_eq_unique (fun _ => none)
    ⟨["email"], [[Val.vstr "a@b.co"], [Val.vstr "b@c.de"]]⟩
    ⟨["email", "date", "lead_day", "lead_week"],
      [[Val.vstr "a@b.co", Val.na, Val.na, Val.na],
       [Val.vstr "b@c.de", Val.na, Val.na, Val.na]]⟩ 0 0 ⟨[], [], 2, 2⟩ (by rfl)).1

/-- Witness for the C8 theorem: `a@B.co` and `a@b.co` differ only in
case and both survive as distinct Clean Records. -/
theorem dedup_key_case_sensitive_witness :
    ∃ pe, findEmailIdx (⟨["email", "date", "lead_day", "lead_week"],
        [[Val.vstr "a@B.co", Val.na, Val.na, Val.na],
         [Val.vstr "a@b.co", Val.na, Val.na, Val.na]]⟩ : Table).cols = some pe ∧
      ((⟨["email", "date", "lead_day", "lead_week"],
        [[Val.vstr "a@B.co", Val.na, Val.na, Val.na],
         [Val.vstr "a@b.co", Val.na, Val.na, Val.na]]⟩ : Table).rows.map
          (fun r => getV r pe)).Nodup ∧
      ∀ s : String, Val.vstr s ∈ (⟨["email", "date", "lead_day", "lead_week"],
          [[Val.vstr "a@B.co", Val.na, Val.na, Val.na],
           [Val.vstr "a@b.co", Val.na, Val.na, Val.na]]⟩ : Table).rows.map
            (fun r => getV r pe) ↔
        ∃ r₀ ∈ (⟨["email"], [[Val.vstr "a@B.co"], [Val.vstr "a@b.co"]]⟩ : Table).rows,
          rawEmailTrim ⟨["email"], [[Val.vstr "a@B.co"], [Val.vstr "a@b.co"]]⟩ 0 r₀ = s ∧
          valid_email (Val.vstr (rawEmailTrim
            ⟨["email"], [[Val.vstr "a@B.co"], [Val.vstr "a@b.co"]]⟩ 0 r₀)) = true :=
  dedup_key_case_sensitive (fun _ => none)
    ⟨["email"], [[Val.vstr "a@B.co"], [Val.vstr "a@b.co"]]⟩
    ⟨["email", "date", "lead_day", "lead_week"],
      [[Val.vstr "a@B.co", Val.na, Val.na, Val.na],
       [Val.vstr "a@b.co", Val.na, Val.na, Val.na]]⟩ 0 0 0 (by rfl) (by rfl)

/-- Witness for the amended C1 theorem at an input with one dated and
one undated Clean Record: the daily sum counts only the dated one. -/
theorem report_counts_exclude_absent_witness :
    ((⟨[(Val.vdate 9, 1)], [(Val.vdate 7, 1)], 2, 2⟩ : Report).daily.map Prod.snd).sum
      = ((⟨["email", "date", "lead_day", "lead_week"],
          [[Val.vstr "a@b.co", Val.vdate 9, Val.vdate 9, Val.vdate 7],
           [Val.vstr "b@c.de", Val.na, Val.na, Val.na]]⟩ : Table).rows.filter
          (fun r => !(getByName ⟨["email", "date", "lead_day", "lead_week"],
            [[Val.vstr "a@b.co", Val.vdate 9, Val.vdate 9, Val.vdate 7],
             [Val.vstr "b@c.de", Val.na, Val.na, Val.na]]⟩ r "lead_day").isNa)).length :=
  (report_counts_exclude_absent (fun s => if s = "xx" then some 9 else none)
    ⟨["email", "date"], [[Val.vstr "a@b.co", Val.vstr "xx"], [Val.vstr "b@c.de", Val.vstr "bad"]]⟩
    ⟨["email", "date", "lead_day", "lead_week"],
      [[Val.vstr "a@b.co", Val.vdate 9, Val.vdate 9, Val.vdate 7],
       [Val.vstr "b@c.de", Val.na, Val.na, Val.na]]⟩ 0 0
    ⟨[(Val.vdate 9, 1)], [(Val.vdate 7, 1)], 2, 2⟩ (by rfl)).1

/-! ## List utilities for the idempotence proof -/

theorem set_getV_self (r : List Val) (i : Nat) : r.set i (getV r i) = r := by
  induction r generalizing i with
  | nil => rfl
  | cons a t ih =>
    cases i with
    | zero => rfl
    | succ n =>
      show a :: t.set n (getV t n) = a :: t
      rw [ih n]

theorem getV_map_na (f : Val → Val) (hf : f Val.na = Val.na) (r : List Val) (i : Nat) :
    getV (r.map f) i = f (getV r i) := by
  induction r generalizing i with
  | nil => exact hf.symm
  | cons a t ih =>
    cases i with
    | zero => rfl
    | succ n => exact ih n

theorem eraseIdx_last {γ : Type} (z : List γ) (c : γ) : (z ++ [c]).eraseIdx z.length = z := by
  induction z with
  | nil => rfl
  | cons a t ih =>
    show a :: (t ++ [c]).eraseIdx t.length = a :: t
    rw [ih]

theorem getV_ext (r1 r2 : List Val) (hlen : r1.length = r2.length)
    (h : ∀ j, getV r1 j = getV r2 j) : r1 = r2 := by
  induction r1 generalizing r2 with
  | nil =>
    cases r2 with
    | nil => rfl
    | cons b t2 => simp at hlen
  | cons a t1 ih =>
    cases r2 with
    | nil => simp at hlen
    | cons b t2 =>
      have h0 := h 0
      have ht : t1 = t2 := ih t2 (by simpa using hlen) (fun j => h (j + 1))
      rw [show a = b from h0, ht]

theorem valid_email_nonempty {s : String} (h : valid_email (Val.vstr s) = true) :
    s ≠ "" := by
  intro hc
  subst hc
  exact absurd h (by decide)

theorem strippedCols_fix (t : Table) : strippedCols ⟨strippedCols t, t.rows⟩
    = strippedCols t := by
  show (strippedCols t).map pyStrip = strippedCols t
  rw [strippedCols, List.map_map]
  apply List.map_congr_left
  intro c _
  exact pyStrip_idem c

theorem idxOfName_eq_none_iff (name : String) (cols : List String) :
    idxOfName name cols = none ↔ name ∉ cols := by
  rw [idxOfName, findCol_none_iff]
  constructor
  · intro h hmem
    have := h name hmem
    simp at this
  · intro h c hc
    exact beq_eq_false_iff_ne.mpr (fun hc2 => h (hc2 ▸ hc))

theorem markerCR_explicit (t : Table) (ei : Nat)
    (hm : "__valid_email" ∉ strippedCols t) :
    markerCR t ei = (strippedCols t ++ ["__valid_email"],
      (trimmedRows t ei).map (fun r => r ++ [Val.vbool (valid_email (getV r ei))]),
      (strippedCols t).length) := by
  have hnone : idxOfName "__valid_email" (strippedCols t) = none :=
    (idxOfName_eq_none_iff _ _).mpr hm
  show setColumn (strippedCols t) (trimmedRows t ei) "__valid_email"
    (fun r => Val.vbool (valid_email (getV r ei))) = _
  simp only [setColumn, hnone, Prod.mk.injEq]
  refine ⟨trivial, ?_, trivial⟩
  apply List.map_congr_left
  intro r hr
  rw [conform_eq_self _ _ (trimmedRows_mem_length t ei r hr)]

theorem validRows_explicit (t : Table) (ei : Nat)
    (hm : "__valid_email" ∉ strippedCols t) :
    validRows t ei = ((trimmedRows t ei).filter (fun r => valid_email (getV r ei))).map
      (fun r => r ++ [Val.vbool (valid_email (getV r ei))]) := by
  unfold validRows
  rw [markerCR_explicit t ei hm]
  show (((trimmedRows t ei).map (fun r => r ++ [Val.vbool (valid_email (getV r ei))])).filter
    (fun r => getV r (strippedCols t).length == Val.vbool true)) = _
  rw [List.filter_map]
  congr 1
  apply List.filter_congr
  intro r hr
  show (getV (r ++ [Val.vbool (valid_email (getV r ei))]) (strippedCols t).length
    == Val.vbool true) = valid_email (getV r ei)
  rw [← trimmedRows_mem_length t ei r hr, getV_append_right]
  cases valid_email (getV r ei) <;> rfl

theorem dedupRows_cells (t : Table) (ei : Nat)
    (hf : findEmailIdx (strippedCols t) = some ei)
    (hm : "__valid_email" ∉ strippedCols t) (hcsv : csvShaped t) :
    ∀ r ∈ dedupRows t ei, r.length = (strippedCols t).length + 1 ∧
      (∃ s, getV r ei = Val.vstr s ∧ pyStrip s = s ∧ valid_email (Val.vstr s) = true) ∧
      (∀ j, j ≠ ei → j ≠ (strippedCols t).length →
        getV r j = Val.na ∨ ∃ s, getV r j = Val.vstr s ∧ s ≠ "") := by
  have hein : ei < (strippedCols t).length := findCol_lt hf
  intro r hr
  have hv : r ∈ validRows t ei := dedupRows_subset_valid t ei r hr
  rw [validRows_explicit t ei hm] at hv
  obtain ⟨tr, htr, rfl⟩ := List.mem_map.mp hv
  have htr' : tr ∈ trimmedRows t ei := List.mem_of_mem_filter htr
  have hval : valid_email (getV tr ei) = true := by
    have := List.of_mem_filter htr
    exact this
  have htrlen : tr.length = (strippedCols t).length := trimmedRows_mem_length t ei tr htr'
  obtain ⟨r₀, hr₀, rfl⟩ := List.mem_map.mp htr'
  have hconlen : (conform t.cols.length r₀).length = t.cols.length := length_conform _ _
  have hcell : getV ((conform t.cols.length r₀).set ei (Val.vstr (rawEmailTrim t ei r₀))) ei
      = Val.vstr (rawEmailTrim t ei r₀) := by
    apply getV_set_eq
    rw [hconlen, ← strippedCols_length]
    exact hein
  refine ⟨by simp [htrlen], ?_, ?_⟩
  · refine ⟨rawEmailTrim t ei r₀, ?_, pyStrip_idem _, ?_⟩
    · rw [getV_append_left _ _ ei (by rw [htrlen]; exact hein)]
      exact hcell
    · rw [hcell] at hval
      exact hval
  · intro j hjei hjn
    rcases Nat.lt_or_ge j (strippedCols t).length with hjlt | hjge
    · rw [getV_append_left _ _ j (by rw [htrlen]; exact hjlt)]
      rw [getV_set_ne _ ei j _ (fun hc => hjei hc.symm)]
      rw [getV_conform _ _ j (by rw [← strippedCols_length]; exact hjlt)]
      rcases Nat.lt_or_ge j r₀.length with hjr | hjr
      · have hmem : getV r₀ j ∈ r₀ := by
          rw [getV, List.getD_eq_getElem?_getD, List.getElem?_eq_getElem hjr]
          exact List.getElem_mem hjr
        rcases hcsv.2 r₀ hr₀ _ hmem with hna | ⟨s, hs, hne⟩
        · exact Or.inl hna
        · exact Or.inr ⟨s, hs, hne⟩
      · left
        rw [getV, List.getD_eq_getElem?_getD, List.getElem?_eq_none (by omega)]
        rfl
    · left
      have hbig : (strippedCols t).length + 1 ≤ j := by omega
      rw [getV, List.getD_eq_getElem?_getD, List.getElem?_eq_none (by simp [htrlen]; omega)]
      rfl

theorem dedupRows_len (t : Table) (ei : Nat)
    (hm : "__valid_email" ∉ strippedCols t) :
    ∀ r ∈ dedupRows t ei, r.length = (strippedCols t).length + 1 := by
  intro r hr
  have hv := dedupRows_subset_valid t ei r hr
  rw [validRows_explicit t ei hm] at hv
  obtain ⟨tr, htr, rfl⟩ := List.mem_map.mp hv
  simp [trimmedRows_mem_length t ei tr (List.mem_of_mem_filter htr)]

theorem clean_leads_explicit_date (parse : String → Option Nat) (t : Table) (ei di : Nat)
    (hf : findEmailIdx (strippedCols t) = some ei)
    (hm : "__valid_email" ∉ strippedCols t)
    (hld : "lead_day" ∉ strippedCols t)
    (hlw : "lead_week" ∉ strippedCols t)
    (hD : findDateIdx (strippedCols t) = some di) :
    clean_leads parse t = .ok
      (⟨strippedCols t ++ ["lead_day", "lead_week"],
        (dedupRows t ei).map (fun r =>
          ((r.set di (toDatetime parse (getV r di))).eraseIdx (strippedCols t).length)
            ++ [dtToDate (toDatetime parse (getV r di)),
                weekStart (toDatetime parse (getV r di))])⟩,
        invalidCount t ei, removedDups t ei) := by
  have hdi_lt : di < (strippedCols t).length := findCol_lt hD
  have hM := markerCR_explicit t ei hm
  have hddlen := dedupRows_len t ei hm
  have hD1 : findDateIdx (strippedCols t ++ ["__valid_email"]) = some di :=
    findCol_append _ hD
  have hdate : dateCR parse t ei = (strippedCols t ++ ["__valid_email"],
      (dedupRows t ei).map (fun r => r.set di (toDatetime parse (getV r di))), di) := by
    simp only [dateCR, hM, hD1]
  have hldnone : idxOfName "lead_day" (strippedCols t ++ ["__valid_email"]) = none := by
    rw [idxOfName_eq_none_iff]
    intro hc
    rcases List.mem_append.mp hc with hc | hc
    · exact hld hc
    · simp at hc
  have hday : dayCR parse t ei = (strippedCols t ++ ["__valid_email", "lead_day"],
      (dedupRows t ei).map (fun r =>
        (r.set di (toDatetime parse (getV r di)))
          ++ [dtToDate (toDatetime parse (getV r di))]),
      (strippedCols t).length + 1) := by
    simp only [dayCR, hdate, setColumn, hldnone, List.map_map, Prod.mk.injEq]
    refine ⟨by simp, ?_, by simp⟩
    apply List.map_congr_left
    intro r hr
    have hlen : (r.set di (toDatetime parse (getV r di))).length
        = (strippedCols t ++ ["__valid_email"]).length := by
      simp [hddlen r hr]
    show conform (strippedCols t ++ ["__valid_email"]).length
        (r.set di (toDatetime parse (getV r di))) ++ _ = _
    rw [conform_eq_self _ _ hlen]
    congr 2
    rw [getV_set_eq _ di _ (by rw [hddlen r hr]; omega)]
  have hlwnone : idxOfName "lead_week" (strippedCols t ++ ["__valid_email", "lead_day"]) = none := by
    rw [idxOfName_eq_none_iff]
    intro hc
    rcases List.mem_append.mp hc with hc | hc
    · exact hlw hc
    · simp at hc
  have hweek : weekCR parse t ei = (strippedCols t ++ ["__valid_email", "lead_day", "lead_week"],
      (dedupRows t ei).map (fun r =>
        ((r.set di (toDatetime parse (getV r di)))
          ++ [dtToDate (toDatetime parse (getV r di))])
          ++ [weekStart (toDatetime parse (getV r di))]),
      (strippedCols t).length + 2) := by
    have hdi2 : (dateCR parse t ei).2.2 = di := by rw [hdate]
    simp only [weekCR, hdi2, hday, setColumn, hlwnone, List.map_map, Prod.mk.injEq]
    refine ⟨by simp, ?_, by simp⟩
    apply List.map_congr_left
    intro r hr
    have hlen : ((r.set di (toDatetime parse (getV r di)))
        ++ [dtToDate (toDatetime parse (getV r di))]).length
        = (strippedCols t ++ ["__valid_email", "lead_day"]).length := by
      simp [hddlen r hr]
    show conform (strippedCols t ++ ["__valid_email", "lead_day"]).length _ ++ _ = _
    rw [conform_eq_self _ _ hlen]
    congr 2
    rw [getV_append_left _ _ di (by simp [hddlen r hr]; omega)]
    rw [getV_set_eq _ di _ (by rw [hddlen r hr]; omega)]
  have hmk4 : idxOfName "__valid_email"
      (strippedCols t ++ ["__valid_email", "lead_day", "lead_week"])
      = some (strippedCols t).length := by
    rw [idxOfName, findCol_append_none _ ((idxOfName_eq_none_iff _ _).mpr hm)]
    simp [findCol]
  rw [clean_leads_ok parse t ei hf]
  refine congrArg (fun x => Except.ok (x, invalidCount t ei, removedDups t ei)) ?_
  show (⟨(dropColumn (weekCR parse t ei).1 (weekCR parse t ei).2.1 "__valid_email").1,
    (dropColumn (weekCR parse t ei).1 (weekCR parse t ei).2.1 "__valid_email").2⟩ : Table) = _
  rw [hweek, dropColumn_eq hmk4]
  refine congrArg₂ Table.mk ?_ ?_
  · rw [List.eraseIdx_append_of_length_le (Nat.le_refl _)]
    simp
  · rw [List.map_map]
    apply List.map_congr_left
    intro r hr
    show ((((r.set di (toDatetime parse (getV r di)))
        ++ [dtToDate (toDatetime parse (getV r di))])
        ++ [weekStart (toDatetime parse (getV r di))]).eraseIdx (strippedCols t).length) = _
    have hl1 : (strippedCols t).length < ((r.set di (toDatetime parse (getV r di)))
        ++ [dtToDate (toDatetime parse (getV r di))]).length := by
      simp [hddlen r hr] <;> omega
    have hl2 : (strippedCols t).length < (r.set di (toDatetime parse (getV r di))).length := by
      simp [hddlen r hr] <;> omega
    rw [List.eraseIdx_append_of_lt_length hl1, List.eraseIdx_append_of_lt_length hl2]
    simp

theorem clean_leads_explicit_nodate (parse : String → Option Nat) (t : Table) (ei : Nat)
    (hf : findEmailIdx (strippedCols t) = some ei)
    (hm : "__valid_email" ∉ strippedCols t)
    (hld : "lead_day" ∉ strippedCols t)
    (hlw : "lead_week" ∉ strippedCols t)
    (hD : findDateIdx (strippedCols t) = none) :
    clean_leads parse t = .ok
      (⟨strippedCols t ++ ["date", "lead_day", "lead_week"],
        (dedupRows t ei).map (fun r =>
          r.eraseIdx (strippedCols t).length ++ [Val.na, Val.na, Val.na])⟩,
        invalidCount t ei, removedDups t ei) := by
  have hM := markerCR_explicit t ei hm
  have hddlen := dedupRows_len t ei hm
  have hD1 : findDateIdx (strippedCols t ++ ["__valid_email"]) = none := by
    show findCol (fun c => dateAliases.contains (strLower c))
      (strippedCols t ++ ["__valid_email"]) = none
    have hstep := @findCol_append_singleton (fun c => dateAliases.contains (strLower c))
      (strippedCols t) "__valid_email" (by decide)
    rw [hstep]
    exact hD
  have hdtnone : idxOfName "date" (strippedCols t ++ ["__valid_email"]) = none := by
    have hD' : findCol (fun c => dateAliases.contains (strLower c)) (strippedCols t)
        = none := hD
    rw [findCol_none_iff] at hD'
    rw [idxOfName_eq_none_iff]
    intro hc
    rcases List.mem_append.mp hc with hc | hc
    · have := hD' "date" hc
      exact absurd this (by decide)
    · simp at hc
  have hdate : dateCR parse t ei = (strippedCols t ++ ["__valid_email", "date"],
      (dedupRows t ei).map (fun r => r ++ [Val.na]),
      (strippedCols t).length + 1) := by
    simp only [dateCR, hM, hD1, setColumn, hdtnone, Prod.mk.injEq]
    refine ⟨by simp, ?_, by simp⟩
    apply List.map_congr_left
    intro r hr
    have hlen : r.length = (strippedCols t ++ ["__valid_email"]).length := by
      simp [hddlen r hr]
    rw [conform_eq_self _ _ hlen]
  have hldnone : idxOfName "lead_day" (strippedCols t ++ ["__valid_email", "date"]) = none := by
    rw [idxOfName_eq_none_iff]
    intro hc
    rcases List.mem_append.mp hc with hc | hc
    · exact hld hc
    · simp at hc
  have hday : dayCR parse t ei = (strippedCols t ++ ["__valid_email", "date", "lead_day"],
      (dedupRows t ei).map (fun r => (r ++ [Val.na]) ++ [Val.na]),
      (strippedCols t).length + 2) := by
    have hdi2 : (dateCR parse t ei).2.2 = (strippedCols t).length + 1 := by rw [hdate]
    simp only [dayCR, hdi2, hdate, setColumn, hldnone, List.map_map, Prod.mk.injEq]
    refine ⟨by simp, ?_, by simp⟩
    apply List.map_congr_left
    intro r hr
    have hlen : (r ++ [Val.na]).length
        = (strippedCols t ++ ["__valid_email", "date"]).length := by
      simp [hddlen r hr]
    show conform (strippedCols t ++ ["__valid_email", "date"]).length _ ++ _ = _
    rw [conform_eq_self _ _ hlen]
    congr 2
    have : getV (r ++ [Val.na]) ((strippedCols t).length + 1) = Val.na := by
      rw [← hddlen r hr, getV_append_right]
    rw [this]
    rfl
  have hlwnone : idxOfName "lead_week"
      (strippedCols t ++ ["__valid_email", "date", "lead_day"]) = none := by
    rw [idxOfName_eq_none_iff]
    intro hc
    rcases List.mem_append.mp hc with hc | hc
    · exact hlw hc
    · simp at hc
  have hweek : weekCR parse t ei =
      (strippedCols t ++ ["__valid_email", "date", "lead_day", "lead_week"],
      (dedupRows t ei).map (fun r => ((r ++ [Val.na]) ++ [Val.na]) ++ [Val.na]),
      (strippedCols t).length + 3) := by
    have hdi2 : (dateCR parse t ei).2.2 = (strippedCols t).length + 1 := by rw [hdate]
    simp only [weekCR, hdi2, hday, setColumn, hlwnone, List.map_map, Prod.mk.injEq]
    refine ⟨by simp, ?_, by simp⟩
    apply List.map_congr_left
    intro r hr
    have hlen : ((r ++ [Val.na]) ++ [Val.na]).length
        = (strippedCols t ++ ["__valid_email", "date", "lead_day"]).length := by
      simp [hddlen r hr]
    show conform (strippedCols t ++ ["__valid_email", "date", "lead_day"]).length _ ++ _ = _
    rw [conform_eq_self _ _ hlen]
    congr 2
    have : getV ((r ++ [Val.na]) ++ [Val.na]) ((strippedCols t).length + 1) = Val.na := by
      rw [getV_append_left _ _ _ (by simp [hddlen r hr])]
      rw [← hddlen r hr, getV_append_right]
    rw [this]
    rfl
  have hmk4 : idxOfName "__valid_email"
      (strippedCols t ++ ["__valid_email", "date", "lead_day", "lead_week"])
      = some (strippedCols t).length := by
    rw [idxOfName, findCol_append_none _ ((idxOfName_eq_none_iff _ _).mpr hm)]
    simp [findCol]
  rw [clean_leads_ok parse t ei hf]
  refine congrArg (fun x => Except.ok (x, invalidCount t ei, removedDups t ei)) ?_
  show (⟨(dropColumn (weekCR parse t ei).1 (weekCR parse t ei).2.1 "__valid_email").1,
    (dropColumn (weekCR parse t ei).1 (weekCR parse t ei).2.1 "__valid_email").2⟩ : Table) = _
  rw [hweek, dropColumn_eq hmk4]
  refine congrArg₂ Table.mk ?_ ?_
  · rw [List.eraseIdx_append_of_length_le (Nat.le_refl _)]
    simp
  · rw [List.map_map]
    apply List.map_congr_left
    intro r hr
    show ((((r ++ [Val.na]) ++ [Val.na]) ++ [Val.na]).eraseIdx (strippedCols t).length) = _
    have hl1 : (strippedCols t).length < ((r ++ [Val.na]) ++ [Val.na]).length := by
      simp [hddlen r hr] <;> omega
    have hl2 : (strippedCols t).length < (r ++ [Val.na]).length := by
      simp [hddlen r hr] <;> omega
    have hl3 : (strippedCols t).length < r.length := by
      rw [hddlen r hr]
      omega
    rw [List.eraseIdx_append_of_lt_length hl1, List.eraseIdx_append_of_lt_length hl2,
      List.eraseIdx_append_of_lt_length hl3]
    simp

theorem clean_leads_fixpoint (parse : String → Option Nat) (T : Table)
    (ei di p3 p4 : Nat)
    (hstrip : strippedCols T = T.cols)
    (hf : findEmailIdx T.cols = some ei)
    (hm : "__valid_email" ∉ T.cols)
    (hD : findDateIdx (T.cols ++ ["__valid_email"]) = some di)
    (hld : idxOfName "lead_day" (T.cols ++ ["__valid_email"]) = some p3)
    (hlw : idxOfName "lead_week" (T.cols ++ ["__valid_email"]) = some p4)
    (hrect : ∀ r ∈ T.rows, r.length = T.cols.length)
    (hvalid : ∀ r ∈ T.rows, ∃ s, getV r ei = Val.vstr s ∧ pyStrip s = s ∧
      valid_email (Val.vstr s) = true)
    (hnodup : (T.rows.map (fun r => getV r ei)).Nodup) :
    clean_leads parse T = .ok
      (⟨T.cols, T.rows.map (fun r =>
        ((r.set di (toDatetime parse (getV r di))).set p3
          (dtToDate (toDatetime parse (getV r di)))).set p4
          (weekStart (toDatetime parse (getV r di))))⟩, 0, 0) := by
  have hm' : "__valid_email" ∉ strippedCols T := by rw [hstrip]; exact hm
  have hf' : findEmailIdx (strippedCols T) = some ei := by rw [hstrip]; exact hf
  have hei_lt : ei < T.cols.length := findCol_lt hf
  have hgetn : (T.cols ++ ["__valid_email"]).getD T.cols.length "" = "__valid_email" :=
    getD_append_right _ _ _
  have hdi_lt1 : di < T.cols.length + 1 := by
    have := findCol_lt hD
    simpa using this
  have halias : dateAliases.contains
      (strLower ((T.cols ++ ["__valid_email"]).getD di "")) = true := by
    have := findCol_prop "" hD
    simpa using this
  have hdi_ne_n : di ≠ T.cols.length := by
    intro hc
    rw [hc, hgetn] at halias
    exact absurd halias (by decide)
  have hdi_lt : di < T.cols.length := by omega
  have halias' : dateAliases.contains (strLower (T.cols.getD di "")) = true := by
    rwa [getD_append_left _ _ _ _ hdi_lt] at halias
  have hp3name : (T.cols ++ ["__valid_email"]).getD p3 "" = "lead_day" := idxOfName_getD hld
  have hp3_lt1 : p3 < T.cols.length + 1 := by
    have := findCol_lt hld
    simpa using this
  have hp3_ne_n : p3 ≠ T.cols.length := by
    intro hc
    rw [hc, hgetn] at hp3name
    exact absurd hp3name (by decide)
  have hp3_lt : p3 < T.cols.length := by omega
  have hp3name' : T.cols.getD p3 "" = "lead_day" := by
    rwa [getD_append_left _ _ _ _ hp3_lt] at hp3name
  have hp4name : (T.cols ++ ["__valid_email"]).getD p4 "" = "lead_week" := idxOfName_getD hlw
  have hp4_lt1 : p4 < T.cols.length + 1 := by
    have := findCol_lt hlw
    simpa using this
  have hp4_ne_n : p4 ≠ T.cols.length := by
    intro hc
    rw [hc, hgetn] at hp4name
    exact absurd hp4name (by decide)
  have hp4_lt : p4 < T.cols.length := by omega
  have hp4name' : T.cols.getD p4 "" = "lead_week" := by
    rwa [getD_append_left _ _ _ _ hp4_lt] at hp4name
  have hemail : strLower (T.cols.getD ei "") = "email" := by
    have := findCol_prop "" hf
    simpa using this
  have hei_ne_di : ei ≠ di := by
    intro hc
    rw [← hc, hemail] at halias'
    exact absurd halias' (by decide)
  have hei_ne_p3 : ei ≠ p3 := by
    intro hc
    rw [← hc] at hp3name'
    rw [hp3name'] at hemail
    exact absurd hemail (by decide)
  have hei_ne_p4 : ei ≠ p4 := by
    intro hc
    rw [← hc] at hp4name'
    rw [hp4name'] at hemail
    exact absurd hemail (by decide)
  have hdi_ne_p3 : di ≠ p3 := by
    intro hc
    rw [← hc] at hp3name'
    rw [hp3name'] at halias'
    exact absurd halias' (by decide)
  have hp3_ne_p4 : p3 ≠ p4 := by
    intro hc
    rw [← hc] at hp4name'
    rw [hp3name'] at hp4name'
    exact absurd hp4name' (by decide)
  have htrim : trimmedRows T ei = T.rows := by
    have hcong : ∀ r ∈ T.rows,
        (conform T.cols.length r).set ei (Val.vstr (rawEmailTrim T ei r)) = id r := by
      intro r hr
      obtain ⟨s, hs, hstripfix, -⟩ := hvalid r hr
      have hcon : conform T.cols.length r = r := conform_eq_self _ _ (hrect r hr)
      have hraw : rawEmailTrim T ei r = s := by
        rw [rawEmailTrim, hcon, hs]
        exact hstripfix
      show (conform T.cols.length r).set ei (Val.vstr (rawEmailTrim T ei r)) = r
      rw [hcon, hraw, ← hs]
      exact set_getV_self r ei
    rw [trimmedRows, List.map_congr_left hcong, List.map_id]
  have hMx : markerCR T ei = (T.cols ++ ["__valid_email"],
      T.rows.map (fun r => r ++ [Val.vbool (valid_email (getV r ei))]),
      T.cols.length) := by
    rw [markerCR_explicit T ei hm', hstrip, htrim]
  have hvalidx : validRows T ei
      = T.rows.map (fun r => r ++ [Val.vbool (valid_email (getV r ei))]) := by
    rw [validRows_explicit T ei hm', htrim]
    have hfil : T.rows.filter (fun r => valid_email (getV r ei)) = T.rows := by
      rw [List.filter_eq_self]
      intro r hr
      obtain ⟨s, hs, -, hv⟩ := hvalid r hr
      rw [hs]
      exact hv
    rw [hfil]
  have hvallen : (validRows T ei).length = T.rows.length := by
    rw [hvalidx, List.length_map]
  have hinv : invalidCount T ei = 0 := by
    rw [invalidCount, hvallen]
    omega
  have hkeys : (validRows T ei).map (fun r => getV r ei)
      = T.rows.map (fun r => getV r ei) := by
    rw [hvalidx, List.map_map]
    apply List.map_congr_left
    intro r hr
    show getV (r ++ [Val.vbool (valid_email (getV r ei))]) ei = getV r ei
    exact getV_append_left _ _ ei (by rw [hrect r hr]; exact hei_lt)
  have hdd : dedupRows T ei = validRows T ei := by
    rw [dedupRows]
    apply dedupKeyed_eq_self
    rw [hkeys]
    exact hnodup
  have hrd : removedDups T ei = 0 := by
    rw [removedDups, hdd]
    omega
  have hddrect : ∀ r ∈ dedupRows T ei, r.length = T.cols.length + 1 := by
    rw [hdd, hvalidx]
    intro r hr
    obtain ⟨r₀, h₀, rfl⟩ := List.mem_map.mp hr
    simp [hrect r₀ h₀]
  have hD1 : findDateIdx (markerCR T ei).1 = some di := by
    rw [hMx]
    exact hD
  have hdatex : dateCR parse T ei = (T.cols ++ ["__valid_email"],
      (dedupRows T ei).map (fun r => r.set di (toDatetime parse (getV r di))), di) := by
    simp only [dateCR, hMx, hD]
  have hdateproj : (dateCR parse T ei).2.2 = di := by rw [hdatex]
  have hld1 : idxOfName "lead_day" (dateCR parse T ei).1 = some p3 := by
    rw [hdatex]
    exact hld
  have hdayx : dayCR parse T ei = (T.cols ++ ["__valid_email"],
      (dedupRows T ei).map (fun r =>
        (r.set di (toDatetime parse (getV r di))).set p3
          (dtToDate (toDatetime parse (getV r di)))), p3) := by
    simp only [dayCR, hdateproj, hdatex, setColumn, hld, List.map_map, Prod.mk.injEq]
    refine ⟨trivial, ?_, trivial⟩
    apply List.map_congr_left
    intro r hr
    have hlen : (r.set di (toDatetime parse (getV r di))).length
        = (T.cols ++ ["__valid_email"]).length := by
      simp [hddrect r hr]
    show (conform (T.cols ++ ["__valid_email"]).length _).set p3 _ = _
    rw [conform_eq_self _ _ hlen]
    congr 2
    rw [getV_set_eq _ di _ (by rw [hddrect r hr]; omega)]
  have hdayproj : (dayCR parse T ei).2.2 = p3 := by rw [hdayx]
  have hlw1 : idxOfName "lead_week" (dayCR parse T ei).1 = some p4 := by
    rw [hdayx]
    exact hlw
  have hweekx : weekCR parse T ei = (T.cols ++ ["__valid_email"],
      (dedupRows T ei).map (fun r =>
        ((r.set di (toDatetime parse (getV r di))).set p3
          (dtToDate (toDatetime parse (getV r di)))).set p4
          (weekStart (toDatetime parse (getV r di)))), p4) := by
    simp only [weekCR, hdateproj, hdayx, setColumn, hlw, List.map_map, Prod.mk.injEq]
    refine ⟨trivial, ?_, trivial⟩
    apply List.map_congr_left
    intro r hr
    have hlen : ((r.set di (toDatetime parse (getV r di))).set p3
        (dtToDate (toDatetime parse (getV r di)))).length
        = (T.cols ++ ["__valid_email"]).length := by
      simp [hddrect r hr]
    show (conform (T.cols ++ ["__valid_email"]).length _).set p4 _ = _
    rw [conform_eq_self _ _ hlen]
    congr 2
    rw [getV_set_ne _ p3 di _ (fun hc => hdi_ne_p3 hc.symm)]
    rw [getV_set_eq _ di _ (by rw [hddrect r hr]; omega)]
  have hmk : idxOfName "__valid_email" (T.cols ++ ["__valid_email"])
      = some T.cols.length := by
    rw [idxOfName, findCol_append_none _ ((idxOfName_eq_none_iff _ _).mpr hm)]
    simp [findCol]
  rw [clean_leads_ok parse T ei hf', hinv, hrd]
  refine congrArg (fun x => Except.ok (x, 0, 0)) ?_
  show (⟨(dropColumn (weekCR parse T ei).1 (weekCR parse T ei).2.1 "__valid_email").1,
    (dropColumn (weekCR parse T ei).1 (weekCR parse T ei).2.1 "__valid_email").2⟩ : Table) = _
  simp only [hweekx, dropColumn, hmk]
  refine congrArg₂ Table.mk ?_ ?_
  · exact eraseIdx_last T.cols "__valid_email"
  · rw [hdd, hvalidx, List.map_map, List.map_map]
    apply List.map_congr_left
    intro r hr
    have hrl : r.length = T.cols.length := hrect r hr
    show ((((r ++ [Val.vbool (valid_email (getV r ei))]).set di
        (toDatetime parse (getV (r ++ [Val.vbool (valid_email (getV r ei))]) di))).set p3
        (dtToDate (toDatetime parse (getV (r ++ [Val.vbool (valid_email (getV r ei))]) di)))).set p4
        (weekStart (toDatetime parse
          (getV (r ++ [Val.vbool (valid_email (getV r ei))]) di)))).eraseIdx T.cols.length
      = _
    rw [getV_append_left _ _ di (by rw [hrl]; exact hdi_lt)]
    rw [List.set_append_left _ _ (by rw [hrl]; exact hdi_lt)]
    rw [List.set_append_left _ _ (by simp [hrl]; omega)]
    rw [List.set_append_left _ _ (by simp [hrl]; omega)]
    have hzlen : (((r.set di (toDatetime parse (getV r di))).set p3
        (dtToDate (toDatetime parse (getV r di)))).set p4
        (weekStart (toDatetime parse (getV r di)))).length = T.cols.length := by
      simp [hrl]
    rw [← hzlen, eraseIdx_last]

/-! ## Round-trip helpers for the idempotence analysis -/

theorem readWrite_na (ser : Nat → String) :
    readCell (writeCell ser Val.na) = Val.na := rfl

theorem readWrite_fix (ser : Nat → String) {s : String} (hs : s ≠ "") :
    readCell (writeCell ser (Val.vstr s)) = Val.vstr s := by
  simp [writeCell, readCell, hs]

theorem toDatetime_readWrite (parse : String → Option Nat) (ser : Nat → String)
    (hser : ∀ d, parse (ser d) = some d) (v : Val) :
    toDatetime parse (readCell (writeCell ser (toDatetime parse v)))
      = toDatetime parse v := by
  cases v with
  | na => rfl
  | vbool b => rfl
  | vdate d => simp [toDatetime, writeCell, readCell, hser d]
  | vstr s =>
    cases hp : parse s with
    | none => simp [toDatetime, hp, writeCell, readCell]
    | some d => simp [toDatetime, hp, writeCell, readCell, hser d]

theorem getD_append_offset {γ : Type} (A l2 : List γ) (d : γ) (k : Nat) :
    (A ++ l2).getD (A.length + k) d = l2.getD k d := by
  induction A with
  | nil => simp
  | cons a t ih =>
    rw [List.cons_append, List.length_cons, Nat.add_right_comm, List.getD_cons_succ]
    exact ih

theorem getV_append_offset (A l2 : List Val) (k : Nat) :
    getV (A ++ l2) (A.length + k) = getV l2 k :=
  getD_append_offset A l2 Val.na k

theorem getV_ge (r : List Val) (j : Nat) (h : r.length ≤ j) : getV r j = Val.na := by
  rw [getV, List.getD_eq_getElem?_getD, List.getElem?_eq_none h]
  rfl

theorem getV_naTriple (k : Nat) : getV [Val.na, Val.na, Val.na] k = Val.na := by
  match k with
  | 0 => rfl
  | 1 => rfl
  | 2 => rfl
  | (m + 3) => rfl

theorem strippedCols_append_fix (t : Table) (ex : List String)
    (rows2 : List (List Val)) (hex : ex.map pyStrip = ex) :
    strippedCols ⟨strippedCols t ++ ex, rows2⟩ = strippedCols t ++ ex := by
  show (strippedCols t ++ ex).map pyStrip = _
  rw [List.map_append, hex]
  congr 1
  rw [strippedCols, List.map_map]
  apply List.map_congr_left
  intro c _
  exact pyStrip_idem c

theorem map_rt_getV (ser : Nat → String) (A l2 : List Val) (ei : Nat)
    (hei : ei < A.length) (s : String) (hs : getV A ei = Val.vstr s) (hne : s ≠ "") :
    getV ((A ++ l2).map (fun v => readCell (writeCell ser v))) ei = Val.vstr s := by
  rw [getV_map_na _ rfl, getV_append_left _ _ ei hei, hs]
  exact readWrite_fix ser hne

theorem roundTrip_row_date (parse : String → Option Nat) (ser : Nat → String)
    (hser : ∀ d, parse (ser d) = some d) (n ei di : Nat)
    (hei : ei < n) (hdi : di < n) (hdie : di ≠ ei)
    (r : List Val) (hlen : r.length = n + 1)
    (s : String) (hs : getV r ei = Val.vstr s) (hval : valid_email (Val.vstr s) = true)
    (hother : ∀ j, j ≠ ei → j ≠ n →
      getV r j = Val.na ∨ ∃ u, getV r j = Val.vstr u ∧ u ≠ "") :
    ∀ w z z2, w = toDatetime parse (getV r di) →
      z = (r.set di w).eraseIdx n ++ [dtToDate w, weekStart w] →
      z2 = z.map (fun v => readCell (writeCell ser v)) →
      ((z2.set di (toDatetime parse (getV z2 di))).set n
          (dtToDate (toDatetime parse (getV z2 di)))).set (n + 1)
          (weekStart (toDatetime parse (getV z2 di))) = z := by
  intro w z z2 hw hz hz2
  have hA : ((r.set di w).eraseIdx n).length = n := by
    rw [List.length_eraseIdx_of_lt (by rw [List.length_set, hlen]; omega),
      List.length_set, hlen]
    omega
  have hzlen : z.length = n + 2 := by
    rw [hz]
    simp [hA]
  have hz2len : z2.length = n + 2 := by
    rw [hz2, List.length_map, hzlen]
  have hzdi : getV z di = w := by
    rw [hz, getV_append_left _ _ di (by rw [hA]; exact hdi),
      getV_eraseIdx_lt _ n di hdi, getV_set_eq _ di _ (by rw [hlen]; omega)]
  have hdi2 : getV z2 di = readCell (writeCell ser w) := by
    rw [hz2, getV_map_na _ rfl, hzdi]
  have hw2 : toDatetime parse (getV z2 di) = w := by
    rw [hdi2, hw]
    exact toDatetime_readWrite parse ser hser (getV r di)
  rw [hw2]
  apply getV_ext
  · rw [List.length_set, List.length_set, List.length_set, hz2len, hzlen]
  intro j
  rcases Nat.lt_or_ge j (n + 2) with hjlt | hjge
  · by_cases hj1 : j = n + 1
    · subst hj1
      rw [getV_set_eq _ (n + 1) _ (by rw [List.length_set, List.length_set, hz2len]; omega)]
      have hn : getV ((r.set di w).eraseIdx n ++ [dtToDate w, weekStart w]) (n + 1)
          = weekStart w := by
        have h0 := getV_append_offset ((r.set di w).eraseIdx n)
          [dtToDate w, weekStart w] 1
        rw [hA] at h0
        simpa [getV] using h0
      rw [hz, hn]
    · by_cases hj2 : j = n
      · have hn : getV ((r.set di w).eraseIdx n ++ [dtToDate w, weekStart w]) n
            = dtToDate w := by
          have h0 := getV_append_offset ((r.set di w).eraseIdx n)
            [dtToDate w, weekStart w] 0
          rw [hA] at h0
          simpa [getV] using h0
        rw [hj2, getV_set_ne _ (n + 1) n _ (by omega),
          getV_set_eq _ n _ (by rw [List.length_set, hz2len]; omega), hz, hn]
      · have hjn : j < n := by omega
        by_cases hj3 : j = di
        · rw [hj3, getV_set_ne _ (n + 1) di _ (by omega), getV_set_ne _ n di _ (by omega),
            getV_set_eq _ di _ (by rw [hz2len]; omega)]
          rw [hzdi]
        · rw [getV_set_ne _ (n + 1) j _ (by omega), getV_set_ne _ n j _ (by omega),
            getV_set_ne _ di j _ (fun hc => hj3 hc.symm)]
          have hzj : getV z j = getV r j := by
            rw [hz, getV_append_left _ _ j (by rw [hA]; exact hjn),
              getV_eraseIdx_lt _ n j hjn,
              getV_set_ne _ di j _ (fun hc => hj3 hc.symm)]
          rw [hz2, getV_map_na _ rfl, hzj]
          by_cases hje : j = ei
          · subst hje
            rw [hs]
            exact readWrite_fix ser (valid_email_nonempty hval)
          · rcases hother j hje (by omega) with hna | ⟨u, hu, hune⟩
            · rw [hna]
              rfl
            · rw [hu]
              exact readWrite_fix ser hune
  · rw [getV_set_ne _ (n + 1) j _ (by omega), getV_set_ne _ n j _ (by omega),
      getV_set_ne _ di j _ (by omega)]
    rw [getV_ge z2 j (by omega), getV_ge z j (by omega)]

theorem roundTrip_row_nodate (parse : String → Option Nat) (ser : Nat → String)
    (n ei : Nat) (hei : ei < n)
    (r : List Val) (hlen : r.length = n + 1)
    (s : String) (hs : getV r ei = Val.vstr s) (hval : valid_email (Val.vstr s) = true)
    (hother : ∀ j, j ≠ ei → j ≠ n →
      getV r j = Val.na ∨ ∃ u, getV r j = Val.vstr u ∧ u ≠ "") :
    ∀ z z2, z = r.eraseIdx n ++ [Val.na, Val.na, Val.na] →
      z2 = z.map (fun v => readCell (writeCell ser v)) →
      ((z2.set n (toDatetime parse (getV z2 n))).set (n + 1)
          (dtToDate (toDatetime parse (getV z2 n)))).set (n + 2)
          (weekStart (toDatetime parse (getV z2 n))) = z := by
  intro z z2 hz hz2
  have hA : (r.eraseIdx n).length = n := by
    rw [List.length_eraseIdx_of_lt (by omega), hlen]
    omega
  have hzlen : z.length = n + 3 := by
    rw [hz]
    simp [hA]
  have hztail : ∀ k, getV z (n + k) = Val.na := by
    intro k
    rw [hz, show n + k = (r.eraseIdx n).length + k from by rw [hA], getV_append_offset]
    exact getV_naTriple k
  have hz2z : z2 = z := by
    rw [hz2]
    apply getV_ext
    · rw [List.length_map]
    intro j
    rw [getV_map_na _ rfl]
    rcases Nat.lt_or_ge j n with hjn | hjge
    · have hzj : getV z j = getV r j := by
        rw [hz, getV_append_left _ _ j (by rw [hA]; exact hjn),
          getV_eraseIdx_lt _ n j hjn]
      rw [hzj]
      by_cases hje : j = ei
      · subst hje
        rw [hs]
        exact readWrite_fix ser (valid_email_nonempty hval)
      · rcases hother j hje (by omega) with hna | ⟨u, hu, hune⟩
        · rw [hna]
          rfl
        · rw [hu]
          exact readWrite_fix ser hune
    · rcases Nat.lt_or_ge j (n + 3) with hjlt | hjbig
      · have : getV z j = Val.na := by
          rw [show j = n + (j - n) from by omega]
          exact hztail (j - n)
        rw [this]
        rfl
      · rw [getV_ge z j (by omega)]
        rfl
  rw [hz2z]
  have hn0 : getV z n = Val.na := by
    have := hztail 0
    simpa using this
  rw [hn0]
  show ((z.set n (toDatetime parse Val.na)).set (n + 1) (dtToDate (toDatetime parse Val.na))).set
      (n + 2) (weekStart (toDatetime parse Val.na)) = z
  have h1 : z.set n (toDatetime parse Val.na) = z := by
    rw [show toDatetime parse Val.na = getV z n from hn0.symm]
    exact set_getV_self z n
  rw [h1]
  have h2 : z.set (n + 1) (dtToDate (toDatetime parse Val.na)) = z := by
    rw [show dtToDate (toDatetime parse Val.na) = getV z (n + 1) from (hztail 1).symm]
    exact set_getV_self z (n + 1)
  rw [h2]
  rw [show weekStart (toDatetime parse Val.na) = getV z (n + 2) from (hztail 2).symm]
  exact set_getV_self z (n + 2)

/-- Claim C9: the cleaning pipeline is idempotent.  If `clean_leads`
succeeds on a CSV-shaped input table whose column names avoid the
pipeline's derived names, producing the clean table `out`, then running
`clean_leads` again on the CSV round-trip of `out` (the clean output
written to CSV and read back, with dates serialized by any `ser` that
the date parser inverts) yields `invalid_count = 0`, `removed_dups = 0`
and the identical clean record set. -/
theorem pipeline_idempotent (parse : String → Option Nat) (ser : Nat → String)
    (hser : ∀ d, parse (ser d) = some d)
    (t out : Table) (ic rd : Nat)
    (hcsv : csvShaped t) (hres : reservedFree t)
    (hok : clean_leads parse t = .ok (out, ic, rd)) :
    clean_leads parse (roundTrip ser out) = .ok (out, 0, 0) := by
  obtain ⟨hmkn, hldn, hlwn⟩ := hres
  cases hfe : findEmailIdx (strippedCols t) with
  | none => simp [clean_leads, hfe] at hok
  | some ei =>
    have hei : ei < (strippedCols t).length := findCol_lt hfe
    have hcells := dedupRows_cells t ei hfe hmkn hcsv
    cases hfd : findDateIdx (strippedCols t) with
    | some di =>
      have hdi : di < (strippedCols t).length := findCol_lt hfd
      have hdie : di ≠ ei := by
        intro hc
        have hpe := findCol_prop "" hfe
        have hpd := findCol_prop "" hfd
        have he2 : strLower ((strippedCols t).getD ei "") = "email" := by simpa using hpe
        rw [hc, he2] at hpd
        exact absurd hpd (by decide)
      rw [clean_leads_explicit_date parse t ei di hfe hmkn hldn hlwn hfd] at hok
      have hout : out = ⟨strippedCols t ++ ["lead_day", "lead_week"],
          (dedupRows t ei).map (fun r =>
            ((r.set di (toDatetime parse (getV r di))).eraseIdx (strippedCols t).length)
              ++ [dtToDate (toDatetime parse (getV r di)),
                  weekStart (toDatetime parse (getV r di))])⟩ := by
        have h1 := hok
        simp only [Except.ok.injEq, Prod.mk.injEq] at h1
        exact h1.1.symm
      subst hout
      have hstrip2 : strippedCols
          (⟨strippedCols t ++ ["lead_day", "lead_week"],
            ((dedupRows t ei).map (fun r =>
            ((r.set di (toDatetime parse (getV r di))).eraseIdx (strippedCols t).length)
              ++ [dtToDate (toDatetime parse (getV r di)),
                  weekStart (toDatetime parse (getV r di))])).map
              (fun r => r.map (fun v => readCell (writeCell ser v)))⟩ : Table)
          = strippedCols t ++ ["lead_day", "lead_week"] :=
        strippedCols_append_fix t ["lead_day", "lead_week"] _ (by decide)
      have hf2 : findEmailIdx (strippedCols t ++ ["lead_day", "lead_week"]) = some ei :=
        findCol_append _ hfe
      have hm2 : "__valid_email" ∉ strippedCols t ++ ["lead_day", "lead_week"] := by
        intro hc
        rcases List.mem_append.mp hc with hc1 | hc1
        · exact hmkn hc1
        · exact absurd hc1 (by decide)
      have hD2 : findDateIdx ((strippedCols t ++ ["lead_day", "lead_week"])
          ++ ["__valid_email"]) = some di := by
        rw [List.append_assoc]
        exact findCol_append _ hfd
      have hld2 : idxOfName "lead_day" ((strippedCols t ++ ["lead_day", "lead_week"])
          ++ ["__valid_email"]) = some (strippedCols t).length := by
        rw [List.append_assoc]
        show findCol (fun c => c == "lead_day")
          (strippedCols t ++ (["lead_day", "lead_week"] ++ ["__valid_email"])) = _
        rw [findCol_append_none _
          ((idxOfName_eq_none_iff "lead_day" (strippedCols t)).mpr hldn)]
        have h0 : findCol (fun c => c == "lead_day")
            (["lead_day", "lead_week"] ++ ["__valid_email"]) = some 0 := by decide
        rw [h0]
        simp
      have hlw2 : idxOfName "lead_week" ((strippedCols t ++ ["lead_day", "lead_week"])
          ++ ["__valid_email"]) = some ((strippedCols t).length + 1) := by
        rw [List.append_assoc]
        show findCol (fun c => c == "lead_week")
          (strippedCols t ++ (["lead_day", "lead_week"] ++ ["__valid_email"])) = _
        rw [findCol_append_none _
          ((idxOfName_eq_none_iff "lead_week" (strippedCols t)).mpr hlwn)]
        have h0 : findCol (fun c => c == "lead_week")
            (["lead_day", "lead_week"] ++ ["__valid_email"]) = some 1 := by decide
        rw [h0]
        simp [Nat.add_comm]
      have hrect2 : ∀ r2 ∈ ((dedupRows t ei).map (fun r =>
            ((r.set di (toDatetime parse (getV r di))).eraseIdx (strippedCols t).length)
              ++ [dtToDate (toDatetime parse (getV r di)),
                  weekStart (toDatetime parse (getV r di))])).map
          (fun r => r.map (fun v => readCell (writeCell ser v))),
          r2.length = (strippedCols t ++ ["lead_day", "lead_week"]).length := by
        intro r2 hr2
        obtain ⟨r1, hr1, rfl⟩ := List.mem_map.mp hr2
        obtain ⟨r, hr, rfl⟩ := List.mem_map.mp hr1
        have hrl := (hcells r hr).1
        rw [List.length_map, List.length_append,
          List.length_eraseIdx_of_lt (by rw [List.length_set, hrl]; omega),
          List.length_set, hrl, List.length_append]
        simp
      have hvalid2 : ∀ r2 ∈ ((dedupRows t ei).map (fun r =>
            ((r.set di (toDatetime parse (getV r di))).eraseIdx (strippedCols t).length)
              ++ [dtToDate (toDatetime parse (getV r di)),
                  weekStart (toDatetime parse (getV r di))])).map
          (fun r => r.map (fun v => readCell (writeCell ser v))),
          ∃ s, getV r2 ei = Val.vstr s ∧ pyStrip s = s ∧
            valid_email (Val.vstr s) = true := by
        intro r2 hr2
        obtain ⟨r1, hr1, rfl⟩ := List.mem_map.mp hr2
        obtain ⟨r, hr, rfl⟩ := List.mem_map.mp hr1
        obtain ⟨hrl, ⟨s, hs, hfix, hval⟩, hother⟩ := hcells r hr
        refine ⟨s, ?_, hfix, hval⟩
        have hAei : getV ((r.set di (toDatetime parse (getV r di))).eraseIdx
            (strippedCols t).length) ei = Val.vstr s := by
          rw [getV_eraseIdx_lt _ _ ei hei, getV_set_ne _ di ei _ hdie, hs]
        exact map_rt_getV ser _ _ ei
          (by rw [List.length_eraseIdx_of_lt (by rw [List.length_set, hrl]; omega),
            List.length_set, hrl]; omega)
          s hAei (valid_email_nonempty hval)
      have hnodup2 : ((((dedupRows t ei).map (fun r =>
            ((r.set di (toDatetime parse (getV r di))).eraseIdx (strippedCols t).length)
              ++ [dtToDate (toDatetime parse (getV r di)),
                  weekStart (toDatetime parse (getV r di))])).map
          (fun r => r.map (fun v => readCell (writeCell ser v)))).map
            (fun r => getV r ei)).Nodup := by
        have hkeys : (((dedupRows t ei).map (fun r =>
            ((r.set di (toDatetime parse (getV r di))).eraseIdx (strippedCols t).length)
              ++ [dtToDate (toDatetime parse (getV r di)),
                  weekStart (toDatetime parse (getV r di))])).map
            (fun r => r.map (fun v => readCell (writeCell ser v)))).map
              (fun r => getV r ei)
            = (dedupRows t ei).map (fun r => getV r ei) := by
          rw [List.map_map, List.map_map]
          apply List.map_congr_left
          intro r hr
          obtain ⟨hrl, ⟨s, hs, hfix, hval⟩, hother⟩ := hcells r hr
          show getV (((fun r =>
            ((r.set di (toDatetime parse (getV r di))).eraseIdx (strippedCols t).length)
              ++ [dtToDate (toDatetime parse (getV r di)),
                  weekStart (toDatetime parse (getV r di))]) r).map
            (fun v => readCell (writeCell ser v))) ei = getV r ei
          have hAei : getV ((r.set di (toDatetime parse (getV r di))).eraseIdx
              (strippedCols t).length) ei = Val.vstr s := by
            rw [getV_eraseIdx_lt _ _ ei hei, getV_set_ne _ di ei _ hdie, hs]
          rw [hs]
          exact map_rt_getV ser _ _ ei
            (by rw [List.length_eraseIdx_of_lt (by rw [List.length_set, hrl]; omega),
              List.length_set, hrl]; omega)
            s hAei (valid_email_nonempty hval)
        rw [hkeys]
        exact dedupRows_keys_nodup t ei
      show clean_leads parse
          (⟨strippedCols t ++ ["lead_day", "lead_week"],
            ((dedupRows t ei).map (fun r =>
            ((r.set di (toDatetime parse (getV r di))).eraseIdx (strippedCols t).length)
              ++ [dtToDate (toDatetime parse (getV r di)),
                  weekStart (toDatetime parse (getV r di))])).map
              (fun r => r.map (fun v => readCell (writeCell ser v)))⟩ : Table) = _
      rw [clean_leads_fixpoint parse _ ei di ((strippedCols t).length)
        ((strippedCols t).length + 1) hstrip2 hf2 hm2 hD2 hld2 hlw2 hrect2
        hvalid2 hnodup2]
      refine congrArg (fun x => Except.ok (x, 0, 0)) ?_
      refine congrArg₂ Table.mk rfl ?_
      rw [List.map_map, List.map_map]
      apply List.map_congr_left
      intro r hr
      obtain ⟨hrl, ⟨s, hs, hfix, hval⟩, hother⟩ := hcells r hr
      dsimp only [Function.comp]
      exact roundTrip_row_date parse ser hser (strippedCols t).length ei di hei hdi
        hdie r hrl s hs hval hother _ _ _ rfl rfl rfl
    | none =>
      rw [clean_leads_explicit_nodate parse t ei hfe hmkn hldn hlwn hfd] at hok
      have hout : out = ⟨strippedCols t ++ ["date", "lead_day", "lead_week"],
          (dedupRows t ei).map (fun r => r.eraseIdx (strippedCols t).length ++ [Val.na, Val.na, Val.na])⟩ := by
        have h1 := hok
        simp only [Except.ok.injEq, Prod.mk.injEq] at h1
        exact h1.1.symm
      subst hout
      have hstrip2 : strippedCols
          (⟨strippedCols t ++ ["date", "lead_day", "lead_week"],
            ((dedupRows t ei).map (fun r => r.eraseIdx (strippedCols t).length ++ [Val.na, Val.na, Val.na])).map
              (fun r => r.map (fun v => readCell (writeCell ser v)))⟩ : Table)
          = strippedCols t ++ ["date", "lead_day", "lead_week"] :=
        strippedCols_append_fix t ["date", "lead_day", "lead_week"] _ (by decide)
      have hf2 : findEmailIdx (strippedCols t ++ ["date", "lead_day", "lead_week"])
          = some ei := findCol_append _ hfe
      have hm2 : "__valid_email" ∉ strippedCols t ++ ["date", "lead_day", "lead_week"] := by
        intro hc
        rcases List.mem_append.mp hc with hc1 | hc1
        · exact hmkn hc1
        · exact absurd hc1 (by decide)
      have hD2 : findDateIdx ((strippedCols t ++ ["date", "lead_day", "lead_week"])
          ++ ["__valid_email"]) = some (strippedCols t).length := by
        rw [List.append_assoc]
        show findCol (fun c => dateAliases.contains (strLower c))
          (strippedCols t ++ (["date", "lead_day", "lead_week"] ++ ["__valid_email"])) = _
        rw [findCol_append_none _ hfd]
        have h0 : findCol (fun c => dateAliases.contains (strLower c))
            (["date", "lead_day", "lead_week"] ++ ["__valid_email"]) = some 0 := by decide
        rw [h0]
        simp
      have hld2 : idxOfName "lead_day" ((strippedCols t ++ ["date", "lead_day", "lead_week"])
          ++ ["__valid_email"]) = some ((strippedCols t).length + 1) := by
        rw [List.append_assoc]
        show findCol (fun c => c == "lead_day")
          (strippedCols t ++ (["date", "lead_day", "lead_week"] ++ ["__valid_email"])) = _
        rw [findCol_append_none _
          ((idxOfName_eq_none_iff "lead_day" (strippedCols t)).mpr hldn)]
        have h0 : findCol (fun c => c == "lead_day")
            (["date", "lead_day", "lead_week"] ++ ["__valid_email"]) = some 1 := by decide
        rw [h0]
        simp [Nat.add_comm]
      have hlw2 : idxOfName "lead_week" ((strippedCols t ++ ["date", "lead_day", "lead_week"])
          ++ ["__valid_email"]) = some ((strippedCols t).length + 2) := by
        rw [List.append_assoc]
        show findCol (fun c => c == "lead_week")
          (strippedCols t ++ (["date", "lead_day", "lead_week"] ++ ["__valid_email"])) = _
        rw [findCol_append_none _
          ((idxOfName_eq_none_iff "lead_week" (strippedCols t)).mpr hlwn)]
        have h0 : findCol (fun c => c == "lead_week")
            (["date", "lead_day", "lead_week"] ++ ["__valid_email"]) = some 2 := by decide
        rw [h0]
        simp [Nat.add_comm]
      have hrect2 : ∀ r2 ∈ ((dedupRows t ei).map (fun r => r.eraseIdx (strippedCols t).length ++ [Val.na, Val.na, Val.na])).map
          (fun r => r.map (fun v => readCell (writeCell ser v))),
          r2.length = (strippedCols t ++ ["date", "lead_day", "lead_week"]).length := by
        intro r2 hr2
        obtain ⟨r1, hr1, rfl⟩ := List.mem_map.mp hr2
        obtain ⟨r, hr, rfl⟩ := List.mem_map.mp hr1
        have hrl := (hcells r hr).1
        rw [List.length_map, List.length_append,
          List.length_eraseIdx_of_lt (by rw [hrl]; omega), hrl, List.length_append]
        simp
      have hvalid2 : ∀ r2 ∈ ((dedupRows t ei).map (fun r => r.eraseIdx (strippedCols t).length ++ [Val.na, Val.na, Val.na])).map
          (fun r => r.map (fun v => readCell (writeCell ser v))),
          ∃ s, getV r2 ei = Val.vstr s ∧ pyStrip s = s ∧
            valid_email (Val.vstr s) = true := by
        intro r2 hr2
        obtain ⟨r1, hr1, rfl⟩ := List.mem_map.mp hr2
        obtain ⟨r, hr, rfl⟩ := List.mem_map.mp hr1
        obtain ⟨hrl, ⟨s, hs, hfix, hval⟩, hother⟩ := hcells r hr
        refine ⟨s, ?_, hfix, hval⟩
        have hAei : getV (r.eraseIdx (strippedCols t).length) ei = Val.vstr s := by
          rw [getV_eraseIdx_lt _ _ ei hei, hs]
        exact map_rt_getV ser _ _ ei
          (by rw [List.length_eraseIdx_of_lt (by rw [hrl]; omega), hrl]; omega)
          s hAei (valid_email_nonempty hval)
      have hnodup2 : ((((dedupRows t ei).map (fun r => r.eraseIdx (strippedCols t).length ++ [Val.na, Val.na, Val.na])).map
          (fun r => r.map (fun v => readCell (writeCell ser v)))).map
            (fun r => getV r ei)).Nodup := by
        have hkeys : (((dedupRows t ei).map (fun r => r.eraseIdx (strippedCols t).length ++ [Val.na, Val.na, Val.na])).map
            (fun r => r.map (fun v => readCell (writeCell ser v)))).map
              (fun r => getV r ei)
            = (dedupRows t ei).map (fun r => getV r ei) := by
          rw [List.map_map, List.map_map]
          apply List.map_congr_left
          intro r hr
          obtain ⟨hrl, ⟨s, hs, hfix, hval⟩, hother⟩ := hcells r hr
          show getV (((fun r => r.eraseIdx (strippedCols t).length ++ [Val.na, Val.na, Val.na]) r).map
            (fun v => readCell (writeCell ser v))) ei = getV r ei
          have hAei : getV (r.eraseIdx (strippedCols t).length) ei = Val.vstr s := by
            rw [getV_eraseIdx_lt _ _ ei hei, hs]
          rw [hs]
          exact map_rt_getV ser _ _ ei
            (by rw [List.length_eraseIdx_of_lt (by rw [hrl]; omega), hrl]; omega)
            s hAei (valid_email_nonempty hval)
        rw [hkeys]
        exact dedupRows_keys_nodup t ei
      show clean_leads parse
          (⟨strippedCols t ++ ["date", "lead_day", "lead_week"],
            ((dedupRows t ei).map (fun r => r.eraseIdx (strippedCols t).length ++ [Val.na, Val.na, Val.na])).map
              (fun r => r.map (fun v => readCell (writeCell ser v)))⟩ : Table) = _
      rw [clean_leads_fixpoint parse _ ei ((strippedCols t).length)
        ((strippedCols t).length + 1) ((strippedCols t).length + 2) hstrip2 hf2 hm2
        hD2 hld2 hlw2 hrect2 hvalid2 hnodup2]
      refine congrArg (fun x => Except.ok (x, 0, 0)) ?_
      refine congrArg₂ Table.mk rfl ?_
      rw [List.map_map, List.map_map]
      apply List.map_congr_left
      intro r hr
      obtain ⟨hrl, ⟨s, hs, hfix, hval⟩, hother⟩ := hcells r hr
      dsimp only [Function.comp]
      exact roundTrip_row_nodate parse ser (strippedCols t).length ei hei r hrl
        s hs hval hother _ _ rfl rfl

theorem pipeline_idempotent_witness :
    clean_leads (fun s => some s.length)
      (roundTrip (fun d => String.mk (List.replicate d 'x'))
        ⟨["email", "date", "lead_day", "lead_week"],
          [[Val.vstr "a@b.co", Val.vdate 2, Val.vdate 2, Val.vdate 0]]⟩)
      = .ok (⟨["email", "date", "lead_day", "lead_week"],
          [[Val.vstr "a@b.co", Val.vdate 2, Val.vdate 2, Val.vdate 0]]⟩, 0, 0) :=
  pipeline_idempotent (fun s => some s.length)
    (fun d => String.mk (List.replicate d 'x'))
    (fun d => by simp)
    ⟨["email", "date"], [[Val.vstr "a@b.co", Val.vstr "xx"]]⟩
    ⟨["email", "date", "lead_day", "lead_week"],
      [[Val.vstr "a@b.co", Val.vdate 2, Val.vdate 2, Val.vdate 0]]⟩
    0 0
    ⟨by
      intro r hr
      simp only [List.mem_singleton] at hr
      subst hr
      rfl,
     by
      intro r hr v hv
      simp only [List.mem_singleton] at hr
      subst hr
      rcases List.mem_cons.mp hv with h | hv2
      · exact Or.inr ⟨"a@b.co", h, by decide⟩
      · rcases List.mem_cons.mp hv2 with h | hv3
        · exact Or.inr ⟨"xx", h, by decide⟩
        · exact absurd hv3 (by simp)⟩
    ⟨by decide, by decide, by decide⟩
    (by rfl)

/-- Claim C10 (amended): column resolution picks the first match in
header order, not by alias priority: the email column is the first whose
trimmed name lowercases to `email`, the date column the first whose
trimmed name lowercases to one of the aliases, and the marker column
added before the date scan is invisible to it.  When several columns
match and each selected column's stripped label is unique among the
renamed headers (the single-Series assumption of lines 69 and 88 — with
a duplicated label the run instead dies, see the counterexample), all
later matching columns are ignored for derivation and kept as ordinary
data columns: the output keeps their name at the same position and every
surviving row keeps their original cell values. -/
theorem column_resolution_first_match :
    (∀ (t : Table) (i : Nat),
      findEmailIdx (strippedCols t) = some i ↔
        (i < t.cols.length ∧ strLower (pyStrip (t.cols.getD i "")) = "email" ∧
          ∀ j, j < i → strLower (pyStrip (t.cols.getD j "")) ≠ "email")) ∧
    (∀ (t : Table) (i : Nat),
      findDateIdx (strippedCols t) = some i ↔
        (i < t.cols.length ∧
          dateAliases.contains (strLower (pyStrip (t.cols.getD i ""))) = true ∧
          ∀ j, j < i → dateAliases.contains (strLower (pyStrip (t.cols.getD j ""))) = false)) ∧
    (∀ (t : Table) (ei : Nat), findDateIdx (markerCR t ei).1 = findDateIdx (strippedCols t)) ∧
    (∀ (parse : String → Option Nat) (t : Table) (ei di : Nat) (out : Table) (ic rd : Nat),
      findEmailIdx (strippedCols t) = some ei →
      findDateIdx (strippedCols t) = some di →
      "__valid_email" ∉ strippedCols t →
      "lead_day" ∉ strippedCols t →
      "lead_week" ∉ strippedCols t →
      labelCount ((strippedCols t).getD ei "") (strippedCols t) = 1 →
      labelCount ((strippedCols t).getD di "") (strippedCols t) = 1 →
      clean_leads parse t = .ok (out, ic, rd) →
      (∀ j, j < (strippedCols t).length → out.cols.getD j "" = (strippedCols t).getD j "") ∧
      ∀ rr ∈ out.rows, ∃ r₀, r₀ ∈ t.rows ∧
        ∀ j, j < (strippedCols t).length → j ≠ ei → j ≠ di →
          getV rr j = getV r₀ j) ∧
    (∀ (parse : String → Option Nat) (t : Table) (ei : Nat) (out : Table) (ic rd : Nat),
      findEmailIdx (strippedCols t) = some ei →
      findDateIdx (strippedCols t) = none →
      "__valid_email" ∉ strippedCols t →
      "lead_day" ∉ strippedCols t →
      "lead_week" ∉ strippedCols t →
      labelCount ((strippedCols t).getD ei "") (strippedCols t) = 1 →
      clean_leads parse t = .ok (out, ic, rd) →
      (∀ j, j < (strippedCols t).length → out.cols.getD j "" = (strippedCols t).getD j "") ∧
      ∀ rr ∈ out.rows, ∃ r₀, r₀ ∈ t.rows ∧
        ∀ j, j < (strippedCols t).length → j ≠ ei →
          getV rr j = getV r₀ j) := by
  have hgetD : ∀ (t : Table) (j : Nat), j < t.cols.length →
      (strippedCols t).getD j "" = pyStrip (t.cols.getD j "") := by
    intro t j hj
    rw [strippedCols, List.getD_eq_getElem?_getD, List.getD_eq_getElem?_getD,
      List.getElem?_map, List.getElem?_eq_getElem hj]
    rfl
  refine ⟨?_, ?_, findDateIdx_markerCR, ?_, ?_⟩
  · intro t i
    constructor
    · intro h
      have hlt : i < t.cols.length := by
        have := findCol_lt h
        rwa [strippedCols_length] at this
      refine ⟨hlt, ?_, ?_⟩
      · have := findCol_prop "" h
        rw [hgetD t i hlt] at this
        simpa using this
      · intro j hj hc
        have hjlt : j < t.cols.length := by omega
        have := findCol_first "" h j hj
        rw [hgetD t j hjlt] at this
        rw [hc] at this
        simp at this
    · rintro ⟨hlt, hp, hmin⟩
      cases hfc : findEmailIdx (strippedCols t) with
      | none =>
        exfalso
        rw [findEmailIdx, findCol_none_iff] at hfc
        have hmem : (strippedCols t).getD i "" ∈ strippedCols t := by
          have hlt' : i < (strippedCols t).length := by rwa [strippedCols_length]
          rw [List.getD_eq_getElem?_getD, List.getElem?_eq_getElem hlt']
          exact List.getElem_mem hlt'
        have := hfc _ hmem
        rw [hgetD t i hlt, hp] at this
        simp at this
      | some j =>
        have hjlt : j < t.cols.length := by
          have := findCol_lt hfc
          rwa [strippedCols_length] at this
        have hjp := findCol_prop "" hfc
        rw [hgetD t j hjlt] at hjp
        have hij : ¬ i < j := by
          intro hij
          have := findCol_first "" hfc i hij
          rw [hgetD t i hlt, hp] at this
          simp at this
        have hji : ¬ j < i := by
          intro hji
          exact hmin j hji (by simpa using hjp)
        have : i = j := by omega
        rw [this]
  · intro t i
    constructor
    · intro h
      have hlt : i < t.cols.length := by
        have := findCol_lt h
        rwa [strippedCols_length] at this
      refine ⟨hlt, ?_, ?_⟩
      · have := findCol_prop "" h
        rwa [hgetD t i hlt] at this
      · intro j hj
        have hjlt : j < t.cols.length := by omega
        have := findCol_first "" h j hj
        rwa [hgetD t j hjlt] at this
    · rintro ⟨hlt, hp, hmin⟩
      cases hfc : findDateIdx (strippedCols t) with
      | none =>
        exfalso
        rw [findDateIdx, findCol_none_iff] at hfc
        have hmem : (strippedCols t).getD i "" ∈ strippedCols t := by
          have hlt' : i < (strippedCols t).length := by rwa [strippedCols_length]
          rw [List.getD_eq_getElem?_getD, List.getElem?_eq_getElem hlt']
          exact List.getElem_mem hlt'
        have := hfc _ hmem
        rw [hgetD t i hlt, hp] at this
        simp at this
      | some j =>
        have hjlt : j < t.cols.length := by
          have := findCol_lt hfc
          rwa [strippedCols_length] at this
        have hjp := findCol_prop "" hfc
        rw [hgetD t j hjlt] at hjp
        have hij : ¬ i < j := by
          intro hij
          have := findCol_first "" hfc i hij
          rw [hgetD t i hlt, hp] at this
          simp at this
        have hji : ¬ j < i := by
          intro hji
          have := hmin j hji
          rw [this] at hjp
          simp at hjp
        have : i = j := by omega
        rw [this]
  · intro parse t ei di out ic rd hf hD hm hldn hlwn hu hud hok
    rw [clean_leads_explicit_date parse t ei di hf hm hldn hlwn hD] at hok
    have hout : out = ⟨strippedCols t ++ ["lead_day", "lead_week"],
        (dedupRows t ei).map (fun r =>
          ((r.set di (toDatetime parse (getV r di))).eraseIdx (strippedCols t).length)
            ++ [dtToDate (toDatetime parse (getV r di)),
                weekStart (toDatetime parse (getV r di))])⟩ := by
      have h1 := hok
      simp only [Except.ok.injEq, Prod.mk.injEq] at h1
      exact h1.1.symm
    subst hout
    constructor
    · intro j hj
      exact getD_append_left _ _ _ j hj
    · intro rr hrr
      obtain ⟨r, hr, rfl⟩ := List.mem_map.mp hrr
      have hrlen : r.length = (strippedCols t).length + 1 := dedupRows_len t ei hm r hr
      have hvr : r ∈ validRows t ei := dedupRows_subset_valid t ei r hr
      rw [validRows_explicit t ei hm] at hvr
      obtain ⟨tr, htr, rfl⟩ := List.mem_map.mp hvr
      have htr2 : tr ∈ trimmedRows t ei := List.mem_of_mem_filter htr
      have htrlen : tr.length = (strippedCols t).length :=
        trimmedRows_mem_length t ei tr htr2
      obtain ⟨r₀, hr₀, rfl⟩ := List.mem_map.mp htr2
      refine ⟨r₀, hr₀, ?_⟩
      intro j hj hje hjd
      rw [getV_append_left _ _ j
        (by rw [List.length_eraseIdx_of_lt (by rw [List.length_set, hrlen]; omega),
          List.length_set, hrlen]; omega)]
      rw [getV_eraseIdx_lt _ (strippedCols t).length j hj]
      rw [getV_set_ne _ di j _ (fun hc => hjd hc.symm)]
      rw [getV_append_left _ _ j (by rw [htrlen]; exact hj)]
      rw [getV_set_ne _ ei j _ (fun hc => hje hc.symm)]
      exact getV_conform _ _ j (by rw [← strippedCols_length]; exact hj)
  · intro parse t ei out ic rd hf hD hm hldn hlwn hu hok
    rw [clean_leads_explicit_nodate parse t ei hf hm hldn hlwn hD] at hok
    have hout : out = ⟨strippedCols t ++ ["date", "lead_day", "lead_week"],
        (dedupRows t ei).map
          (fun r => r.eraseIdx (strippedCols t).length ++ [Val.na, Val.na, Val.na])⟩ := by
      have h1 := hok
      simp only [Except.ok.injEq, Prod.mk.injEq] at h1
      exact h1.1.symm
    subst hout
    constructor
    · intro j hj
      exact getD_append_left _ _ _ j hj
    · intro rr hrr
      obtain ⟨r, hr, rfl⟩ := List.mem_map.mp hrr
      have hrlen : r.length = (strippedCols t).length + 1 := dedupRows_len t ei hm r hr
      have hvr : r ∈ validRows t ei := dedupRows_subset_valid t ei r hr
      rw [validRows_explicit t ei hm] at hvr
      obtain ⟨tr, htr, rfl⟩ := List.mem_map.mp hvr
      have htr2 : tr ∈ trimmedRows t ei := List.mem_of_mem_filter htr
      have htrlen : tr.length = (strippedCols t).length :=
        trimmedRows_mem_length t ei tr htr2
      obtain ⟨r₀, hr₀, rfl⟩ := List.mem_map.mp htr2
      refine ⟨r₀, hr₀, ?_⟩
      intro j hj hje
      rw [getV_append_left _ _ j
        (by rw [List.length_eraseIdx_of_lt (by rw [hrlen]; omega), hrlen]; omega)]
      rw [getV_eraseIdx_lt _ (strippedCols t).length j hj]
      rw [getV_append_left _ _ j (by rw [htrlen]; exact hj)]
      rw [getV_set_ne _ ei j _ (fun hc => hje hc.symm)]
      exact getV_conform _ _ j (by rw [← strippedCols_length]; exact hj)

/-- Claim C10 (counterexample): with raw headers `" email"` and `"email"`
several columns match the email rule and resolution picks the first, but
the later matching column is not kept as an ordinary data column: both
headers strip to the identical label `email` under the line-58 rename, so
the line-69 selection `df["email"]` grabs both columns and its `.str`
accessor raises an uncaught `AttributeError` — the run crashes instead of
producing an output in which the second column survives as data. -/
theorem column_resolution_dup_label_cex :
    findEmailIdx (strippedCols ⟨[" email", "email"],
      [[Val.vstr "a@b.co", Val.vstr "b@c.de"]]⟩) = some 0 ∧
    strLower ((strippedCols ⟨[" email", "email"],
      [[Val.vstr "a@b.co", Val.vstr "b@c.de"]]⟩).getD 1 "") = "email" ∧
    labelCount "email" (strippedCols ⟨[" email", "email"],
      [[Val.vstr "a@b.co", Val.vstr "b@c.de"]]⟩) = 2 ∧
    emailColSelect ⟨[" email", "email"],
      [[Val.vstr "a@b.co", Val.vstr "b@c.de"]]⟩ = none := by decide

/-- Witness for the C10 theorem: headers `["email", "Email", "date",
"created_at"]` have a later email match (index 1) and a later date-alias
match (index 3), both with unique stripped labels; the resolver picks
indices 0 and 2, and the clean output keeps `Email` at position 1 and the
surviving row's cells at every non-derived position unchanged.  The
no-date-column retention conjunct is exercised at `["email", "Email"]`,
and the date conjunct at `[" Created_At", "date"]`, which resolves to
index 0 (header order, not alias priority). -/
theorem column_resolution_first_match_witness :
    (∃ r₀, r₀ ∈ (⟨["email", "Email"],
        [[Val.vstr "a@b.co", Val.vstr "keep"]]⟩ : Table).rows ∧
      ∀ j, j < (strippedCols ⟨["email", "Email"],
          [[Val.vstr "a@b.co", Val.vstr "keep"]]⟩).length → j ≠ 0 →
        getV [Val.vstr "a@b.co", Val.vstr "keep", Val.na, Val.na, Val.na] j
          = getV r₀ j) ∧
    ((⟨["email", "Email", "date", "created_at", "lead_day", "lead_week"],
        [[Val.vstr "a@b.co", Val.vstr "keep1", Val.vdate 2, Val.vstr "keep2",
          Val.vdate 2, Val.vdate 0]]⟩ : Table).cols.getD 1 ""
      = (strippedCols ⟨["email", "Email", "date", "created_at"],
          [[Val.vstr "a@b.co", Val.vstr "keep1", Val.vstr "xx",
            Val.vstr "keep2"]]⟩).getD 1 "" ∧
      (∃ r₀, r₀ ∈ (⟨["email", "Email", "date", "created_at"],
          [[Val.vstr "a@b.co", Val.vstr "keep1", Val.vstr "xx",
            Val.vstr "keep2"]]⟩ : Table).rows ∧
        ∀ j, j < (strippedCols ⟨["email", "Email", "date", "created_at"],
            [[Val.vstr "a@b.co", Val.vstr "keep1", Val.vstr "xx",
              Val.vstr "keep2"]]⟩).length → j ≠ 0 → j ≠ 2 →
          getV [Val.vstr "a@b.co", Val.vstr "keep1", Val.vdate 2, Val.vstr "keep2",
            Val.vdate 2, Val.vdate 0] j = getV r₀ j)) ∧
    (0 < (⟨[" Created_At", "date"], ([] : List (List Val))⟩ : Table).cols.length ∧
      dateAliases.contains (strLower (pyStrip
        ((⟨[" Created_At", "date"], ([] : List (List Val))⟩ : Table).cols.getD 0 ""))) = true ∧
      ∀ j, j < 0 → dateAliases.contains (strLower (pyStrip
        ((⟨[" Created_At", "date"], ([] : List (List Val))⟩ : Table).cols.getD j ""))) = false) :=
  have h0 := column_resolution_first_match.2.2.2.2 (fun _ => none)
    ⟨["email", "Email"], [[Val.vstr "a@b.co", Val.vstr "keep"]]⟩ 0
    ⟨["email", "Email", "date", "lead_day", "lead_week"],
      [[Val.vstr "a@b.co", Val.vstr "keep", Val.na, Val.na, Val.na]]⟩
    0 0 (by decide) (by decide) (by decide) (by decide) (by decide) (by decide)
    (by rfl)
  have h := column_resolution_first_match.2.2.2.1 (fun s => some s.length)
    ⟨["email", "Email", "date", "created_at"],
      [[Val.vstr "a@b.co", Val.vstr "keep1", Val.vstr "xx", Val.vstr "keep2"]]⟩
    0 2
    ⟨["email", "Email", "date", "created_at", "lead_day", "lead_week"],
      [[Val.vstr "a@b.co", Val.vstr "keep1", Val.vdate 2, Val.vstr "keep2",
        Val.vdate 2, Val.vdate 0]]⟩
    0 0 (by decide) (by decide) (by decide) (by decide) (by decide) (by decide)
    (by decide) (by rfl)
  ⟨h0.2 [Val.vstr "a@b.co", Val.vstr "keep", Val.na, Val.na, Val.na] (by decide),
   ⟨h.1 1 (by decide),
    h.2 [Val.vstr "a@b.co", Val.vstr "keep1", Val.vdate 2, Val.vstr "keep2",
      Val.vdate 2, Val.vdate 0] (by decide)⟩,
   (column_resolution_first_match.2.1 ⟨[" Created_At", "date"], []⟩ 0).mp (by decide)⟩

